import Mathlib

/-!
# Verification of the `lex` tokenizer (rumlang/exp)

Shallow embedding of `lex/lex.go`: the rune scanner the lexer reads from, the
seven recognizers, the scan loop `parseSimpleTokens`, the reclassification pass
`parseIdentifer` and the entry point `Parse`, followed by theorems about them.

Conventions of the embedding.
* A Go `string` is a Lean `String`, a `rune` is a `Char` (a valid code point),
  an `int` is an `Int`. The input is a text of valid code points; the size of
  a rune is the length of its UTF-8 encoding.
* The `io.Reader` handed to `Parse` is an in-memory text; the `bufio.Reader`
  wrapped around it is `RuneScanner`: the code points not yet read, and the
  code point the last successful `ReadRune` returned (what `UnreadRune` puts
  back).
* A Go `error` value is an `Option Error` (`none` is `nil`).
* A function that may panic, or that contains a loop, returns an `Outcome`.
  Each `for` loop is a recursive function on a bound of iterations, started
  with the number of unread code points plus one; `Outcome.fuel` would be the
  exhaustion of that bound, and the theorems `singleLineCommentLoop_spec`,
  `stringLoop_spec`, `identiferLoop_spec`, `multipleLineCommentLoop_spec` and
  `scanLoop_spec` show that it never happens.
-/

namespace lex

/-! ## Code points named in the source -/

/-- The rune `'\n'`. -/
def newline : Char := Char.ofNat 10
/-- The rune `'\t'`. -/
def tab : Char := Char.ofNat 9
/-- The rune `'\v'`. -/
def vtab : Char := Char.ofNat 11
/-- The rune `'\f'`. -/
def formfeed : Char := Char.ofNat 12
/-- The rune `'\r'`. -/
def creturn : Char := Char.ofNat 13
/-- The rune `' '`. -/
def space : Char := Char.ofNat 32
/-- The rune `0x85`. -/
def nel : Char := Char.ofNat 133
/-- The rune `0xA0`. -/
def nbsp : Char := Char.ofNat 160
/-- The rune `'('`. -/
def lparen : Char := Char.ofNat 40
/-- The rune `')'`. -/
def rparen : Char := Char.ofNat 41
/-- The rune `';'`. -/
def semicolon : Char := Char.ofNat 59
/-- The rune `'"'`. -/
def quote : Char := Char.ofNat 34
/-- The rune `'\\'`. -/
def backslash : Char := Char.ofNat 92
/-- The rune `'#'`. -/
def hash : Char := Char.ofNat 35
/-- The rune `'|'`. -/
def bar : Char := Char.ofNat 124

/-! ## Data model -/

/-- The errors a rune scanner over an in-memory text can report:
`io.EOF` and `bufio.ErrInvalidUnreadRune`. -/
inductive Error where
  | EOF
  | ErrInvalidUnreadRune
deriving DecidableEq, Repr

/-- Result of a computation that may panic (with the offending rune) or
exhaust the iteration bound of a loop. -/
inductive Outcome (α : Type) where
  | ret (a : α)
  | panic (r : Char)
  | fuel
deriving DecidableEq, Repr

/-- Token data (`type Token struct`); field `Typ` is Go's `Type`. -/
structure Token where
  Typ : String
  Literal : String
  Line : Int
  Column : Int
  Offset : Int
deriving DecidableEq, Repr

/-- The `bufio.Reader` over an in-memory text, seen through `io.RuneScanner`. -/
structure RuneScanner where
  unread : List Char
  last : Option Char
deriving DecidableEq, Repr

/-- The call `bufio.NewReader(reader)` for a reader over the text `input`. -/
def NewReader (input : String) : RuneScanner :=
  { unread := input.data, last := none }

/-- The method `ReadRune`: the next code point and its encoded size, or
`(0, 0, io.EOF)` at the end of the text. -/
def RuneScanner.ReadRune (b : RuneScanner) : Char × Int × Option Error × RuneScanner :=
  match b.unread with
  | [] => (Char.ofNat 0, 0, some Error.EOF, { unread := [], last := none })
  | c :: rest => (c, (c.utf8Size : Int), none, { unread := rest, last := some c })

/-- The method `UnreadRune`: puts back the rune of the last `ReadRune`, and
fails when the last operation was not a successful `ReadRune`. -/
def RuneScanner.UnreadRune (b : RuneScanner) : Option Error × RuneScanner :=
  match b.last with
  | none => (some Error.ErrInvalidUnreadRune, b)
  | some c => (none, { unread := c :: b.unread, last := none })

/-- The lexer data (`type lexer struct`); the field `tokenParsers` is the
constant list `tokenParsers` below. -/
structure lexer where
  tokRune : Char
  tokens : List Token
  currentLine : Int
  currentColumn : Int
  offset : Int
  reader : RuneScanner
deriving DecidableEq, Repr

/-- The type `tokenFunction`: `func(l *lexer) (ok bool, err error)`, with the
lexer it leaves behind. -/
abbrev tokenFunction := lexer → Outcome (Bool × Option Error × lexer)

/-- The method `appendTok`: add a new token to the current token list. -/
def lexer.appendTok (l : lexer) (literalValue tokType : String) : lexer :=
  { l with tokens := l.tokens ++ [{ Typ := tokType, Literal := literalValue,
                                    Line := l.currentLine, Offset := l.offset,
                                    Column := l.currentColumn }] }

/-! ## Recognizers -/

/-- The whitespace set of `separatorTok`'s `switch`. -/
def isWhitespace (v : Char) : Bool :=
  v == newline || v == tab || v == vtab || v == formfeed || v == creturn ||
    v == space || v == nel || v == nbsp

/-- The function `separatorTok`. -/
def separatorTok : tokenFunction := fun l =>
  if isWhitespace l.tokRune then
    Outcome.ret (true, none, l.appendTok (String.singleton l.tokRune) "SEPARATOR")
  else Outcome.ret (false, none, l)

/-- The function `isIdentiferSeparator`. -/
def isIdentiferSeparator (v : Char) : Bool :=
  v == newline || v == tab || v == vtab || v == formfeed || v == creturn ||
    v == space || v == nel || v == nbsp || v == lparen || v == rparen

/-- The `for l.tokRune != '\n'` loop of `singleLineCommentTok`; returns the
lexer, `value` and `err` on leaving the loop (`err` is `io.EOF` after the
`break`, another error after the `return`, `nil` when the condition fails). -/
def singleLineCommentLoop : Nat → lexer → String → Outcome (lexer × String × Option Error)
  | 0, _, _ => Outcome.fuel
  | n + 1, l, value =>
    if l.tokRune ≠ newline then
      match l.reader.ReadRune with
      | (r, size, err, rd) =>
        match err with
        | some e => Outcome.ret ({ l with tokRune := r, reader := rd }, value, some e)
        | none =>
          singleLineCommentLoop n
            { l with tokRune := r, reader := rd, offset := l.offset + size } (value.push r)
    else Outcome.ret (l, value, none)

/-- The function `singleLineCommentTok`. -/
def singleLineCommentTok : tokenFunction := fun l =>
  if l.tokRune = semicolon then
    match singleLineCommentLoop (l.reader.unread.length + 1) l ";" with
    | Outcome.ret (l1, value, err) =>
      match err with
      | some Error.ErrInvalidUnreadRune => Outcome.ret (false, err, l1)
      | _ => Outcome.ret (true, err, l1.appendTok value "SINGLE-LINE-COMMENT")
    | Outcome.panic r => Outcome.panic r
    | Outcome.fuel => Outcome.fuel
  else Outcome.ret (false, none, l)

/-- The function `notImplemented`: panics with the current rune. -/
def notImplemented : tokenFunction := fun l => Outcome.panic l.tokRune

/-- The function `listBeginTok`. -/
def listBeginTok : tokenFunction := fun l =>
  if l.tokRune = lparen then Outcome.ret (true, none, l.appendTok "(" "LIST-BEGIN")
  else Outcome.ret (false, none, l)

/-- The function `listEndTok`. -/
def listEndTok : tokenFunction := fun l =>
  if l.tokRune = rparen then Outcome.ret (true, none, l.appendTok ")" "LIST-END")
  else Outcome.ret (false, none, l)

/-- The `for` loop of `stringTok`, with `value` and `lastRune`; returns the
lexer, `value` and `err` at the `break`. -/
def stringLoop : Nat → lexer → String → Char → Outcome (lexer × String × Option Error)
  | 0, _, _, _ => Outcome.fuel
  | n + 1, l, value, lastRune =>
    match l.reader.ReadRune with
    | (r, size, err, rd) =>
      match err with
      | some Error.EOF => Outcome.ret ({ l with tokRune := r, reader := rd }, value, err)
      | _ =>
        if lastRune ≠ backslash ∧ r = quote then
          Outcome.ret ({ l with tokRune := r, reader := rd, offset := l.offset + size }, value, err)
        else
          stringLoop n { l with tokRune := r, reader := rd, offset := l.offset + size }
            (value.push r) r

/-- The function `stringTok`. -/
def stringTok : tokenFunction := fun l =>
  if l.tokRune = quote then
    match stringLoop (l.reader.unread.length + 1) l "" (Char.ofNat 0) with
    | Outcome.ret (l1, value, err) => Outcome.ret (true, err, l1.appendTok value "STRING")
    | Outcome.panic r => Outcome.panic r
    | Outcome.fuel => Outcome.fuel
  else Outcome.ret (false, none, l)

/-- The `for !isIdentiferSeparator(l.tokRune)` loop of `identiferTok`, with
`identifer`, `ok` and `err`; returns them with the lexer on leaving the loop. -/
def identiferLoop : Nat → lexer → String → Bool → Option Error →
    Outcome (lexer × String × Bool × Option Error)
  | 0, _, _, _, _ => Outcome.fuel
  | n + 1, l, identifer, ok, err =>
    if isIdentiferSeparator l.tokRune then Outcome.ret (l, identifer, ok, err)
    else
      match l.reader.ReadRune with
      | (r, size, err1, rd) =>
        match err1 with
        | some Error.EOF =>
          Outcome.ret ({ l with tokRune := r, reader := rd }, identifer.push l.tokRune, true, err1)
        | _ =>
          if isIdentiferSeparator r then
            match rd.UnreadRune with
            | (err2, rd2) =>
              Outcome.ret ({ l with tokRune := r, reader := rd2 },
                identifer.push l.tokRune, true, err2)
          else
            identiferLoop n { l with tokRune := r, reader := rd, offset := l.offset + size }
              (identifer.push l.tokRune) true err1

/-- The function `identiferTok`. -/
def identiferTok : tokenFunction := fun l =>
  match identiferLoop (l.reader.unread.length + 1) l "" false none with
  | Outcome.ret (l1, identifer, ok, err) =>
    if ok then Outcome.ret (ok, err, l1.appendTok identifer "IDENTIFER")
    else Outcome.ret (ok, err, l1)
  | Outcome.panic r => Outcome.panic r
  | Outcome.fuel => Outcome.fuel

/-- The method `peekRune`. -/
def lexer.peekRune (l : lexer) : Char × Option Error × lexer :=
  match l.reader.ReadRune with
  | (v, _, err, rd) =>
    match err with
    | some e => (v, some e, { l with reader := rd })
    | none =>
      match rd.UnreadRune with
      | (err2, rd2) => (v, err2, { l with reader := rd2 })

/-- The method `ifRunePattern`, for the two-rune pattern `[p0, p1]`. -/
def lexer.ifRunePattern (l : lexer) (p0 p1 : Char) : Bool × Option Error × lexer :=
  if l.tokRune ≠ p0 then (false, none, l)
  else
    match l.peekRune with
    | (p, err, l1) => (p == p1, err, l1)

/-- The `for` loop of `multipleLineCommentTok`, with `value` and `ok`. The
first component is `some value` when the loop is left by its `break` and
`none` when the function returns from inside the loop. -/
def multipleLineCommentLoop : Nat → lexer → String → Bool →
    Outcome (Option String × Bool × Option Error × lexer)
  | 0, _, _, _ => Outcome.fuel
  | n + 1, l, value, ok =>
    match l.reader.ReadRune with
    | (r, size, err, rd) =>
      match err with
      | some e => Outcome.ret (none, ok, some e, { l with tokRune := r, reader := rd })
      | none =>
        match lexer.ifRunePattern
            { l with tokRune := r, reader := rd, offset := l.offset + size } bar hash with
        | (ok1, err1, l1) =>
          match err1 with
          | some e => Outcome.ret (none, ok1, some e, l1)
          | none =>
            if ok1 then
              match l1.reader.ReadRune with
              | (_, _, err2, rd2) =>
                Outcome.ret (some (value.push r ++ "#"), ok1, err2, { l1 with reader := rd2 })
            else multipleLineCommentLoop n l1 (value.push r) ok1

/-- The function `multipleLineCommentTok`. -/
def multipleLineCommentTok : tokenFunction := fun l =>
  match l.ifRunePattern hash bar with
  | (ok, err, l1) =>
    if !ok || err ≠ none then Outcome.ret (ok, err, l1)
    else
      match multipleLineCommentLoop (l1.reader.unread.length + 1) l1 "#" ok with
      | Outcome.ret (some value, ok1, err1, l2) =>
        Outcome.ret (ok1, err1, l2.appendTok value "MULTIPLE-LINE-COMMENT")
      | Outcome.ret (none, ok1, err1, l2) => Outcome.ret (ok1, err1, l2)
      | Outcome.panic r => Outcome.panic r
      | Outcome.fuel => Outcome.fuel

/-! ## Scan loop -/

/-- The recognizers in the order of the `tokenParsers` field. -/
def tokenParsers : List tokenFunction :=
  [separatorTok, singleLineCommentTok, multipleLineCommentTok, listBeginTok,
   listEndTok, stringTok, identiferTok, notImplemented]

/-- The inner `for _, f := range l.tokenParsers` loop: `some err` when a
recognizer returned the error `err` (the function returns), `none` when the
loop ended (by `break`, or with the list exhausted). -/
def runParsers : List tokenFunction → lexer → Outcome (Option Error × lexer)
  | [], l => Outcome.ret (none, l)
  | f :: fs, l =>
    match f l with
    | Outcome.ret (ok, err, l1) =>
      match err with
      | some e => Outcome.ret (some e, l1)
      | none => if ok then Outcome.ret (none, l1) else runParsers fs l1
    | Outcome.panic r => Outcome.panic r
    | Outcome.fuel => Outcome.fuel

/-- How `parseSimpleTokens` leaves its outer `for` loop: by the `break` after
its own `ReadRune` met the end of the input, or by the `return` after a
recognizer reported an error. -/
inductive LoopExit where
  | atBreak (l : lexer)
  | atReturn (l : lexer) (err : Error)
deriving DecidableEq, Repr

/-- The outer `for` loop of `parseSimpleTokens`. -/
def scanLoop : Nat → lexer → Outcome LoopExit
  | 0, _ => Outcome.fuel
  | n + 1, l =>
    match l.reader.ReadRune with
    | (r, size, err, rd) =>
      match err with
      | some Error.EOF => Outcome.ret (LoopExit.atBreak { l with tokRune := r, reader := rd })
      | _ =>
        match runParsers tokenParsers
            { l with tokRune := r, reader := rd, offset := l.offset + size } with
        | Outcome.ret (some e, l1) => Outcome.ret (LoopExit.atReturn l1 e)
        | Outcome.ret (none, l1) => scanLoop n l1
        | Outcome.panic c => Outcome.panic c
        | Outcome.fuel => Outcome.fuel

/-- The lexer `parseSimpleTokens` starts from. -/
def initLexer (input : String) : lexer :=
  { tokRune := Char.ofNat 0, tokens := [], currentLine := 0, currentColumn := 0,
    offset := 0, reader := NewReader input }

/-- The function `parseSimpleTokens`: after the `break` the result is
`(l.tokens, io.EOF)`; after the `return` inside the loop the named result
`tokens` is still `nil`. -/
def parseSimpleTokens (input : String) : Outcome (List Token × Option Error) :=
  match scanLoop (input.data.length + 1) (initLexer input) with
  | Outcome.ret (LoopExit.atBreak l) => Outcome.ret (l.tokens, some Error.EOF)
  | Outcome.ret (LoopExit.atReturn _ e) => Outcome.ret ([], some e)
  | Outcome.panic c => Outcome.panic c
  | Outcome.fuel => Outcome.fuel

/-! ## Numerals: the library call `strconv.ParseFloat(s, 64)`

`isNumeric` only asks whether `strconv.ParseFloat` returns a nil error. The
functions below follow `special`, `readFloat` and `underscoreOK` of the Go
standard library (`strconv/atof.go`, `strconv/atoi.go`) for the syntax. The
conversion to a `float64` is replaced by what it is documented to compute: the
nearest `float64` (ties to even), with `ErrRange` when that is infinite, that
is when the magnitude is at least `2^1024 - 2^970`. For that comparison the
mantissa is kept exactly (all its digits), where the library keeps the first
19 digits and a truncation flag.
-/

/-- Go's `lower(c byte)`, `c | ('x' - 'X')`, as a character code. -/
def lower (c : Char) : Nat := c.toNat ||| 32

/-- Whether `c` is one of `'0'` to `'9'`. -/
def isDecDigit (c : Char) : Bool := decide (48 ≤ c.toNat) && decide (c.toNat ≤ 57)

/-- Whether `lower(c)` is one of `'a'` to `'f'`. -/
def isHexLetter (c : Char) : Bool := decide (97 ≤ lower c) && decide (lower c ≤ 102)

/-- Go's `commonPrefixLenIgnoreCase(s, prefix)`, `prefix` in lower case. -/
def commonPrefixLenIgnoreCase : List Char → List Char → Nat
  | c :: s, p :: ps =>
    if (if 65 ≤ c.toNat ∧ c.toNat ≤ 90 then c.toNat + 32 else c.toNat) = p.toNat then
      commonPrefixLenIgnoreCase s ps + 1
    else 0
  | _, _ => 0

/-- The `case 'i', 'I'` branch of `special`, entered with `nsign` sign bytes
already skipped. -/
def specialInf (s : List Char) (nsign : Nat) : Nat × Bool :=
  let n := commonPrefixLenIgnoreCase s "infinity".data
  let n1 := if 3 < n ∧ n < 8 then 3 else n
  if n1 = 3 ∨ n1 = 8 then (nsign + n1, true) else (0, false)

/-- Go's `special(s)`: the number of bytes of an infinity or NaN spelling at
the start of `s`, and whether there is one. -/
def special (s : List Char) : Nat × Bool :=
  match s with
  | [] => (0, false)
  | c :: rest =>
    if c = '+' ∨ c = '-' then specialInf rest 1
    else if c = 'i' ∨ c = 'I' then specialInf s 0
    else if c = 'n' ∨ c = 'N' then
      if commonPrefixLenIgnoreCase s "nan".data = 3 then (3, true) else (0, false)
    else (0, false)

/-- The locals of `readFloat` that its mantissa loop updates. -/
structure MantissaState where
  mantissa : Nat
  nd : Nat
  dp : Int
  sawdot : Bool
  sawdigits : Bool
  underscores : Bool
deriving DecidableEq, Repr

/-- The labelled `loop:` of `readFloat` over the mantissa, for `base` 10
(`hex = false`) or 16; returns the locals and the text not consumed. -/
def mantissaLoop (hex : Bool) : List Char → MantissaState → MantissaState × List Char
  | [], st => (st, [])
  | c :: s, st =>
    if c = '_' then mantissaLoop hex s { st with underscores := true }
    else if c = '.' then
      if st.sawdot then (st, c :: s)
      else mantissaLoop hex s { st with sawdot := true, dp := st.nd }
    else if isDecDigit c then
      if c = '0' ∧ st.nd = 0 then
        mantissaLoop hex s { st with sawdigits := true, dp := st.dp - 1 }
      else
        mantissaLoop hex s
          { st with sawdigits := true, nd := st.nd + 1,
                    mantissa := st.mantissa * (if hex then 16 else 10) + (c.toNat - 48) }
    else if hex && isHexLetter c then
      mantissaLoop hex s
        { st with sawdigits := true, nd := st.nd + 1,
                  mantissa := st.mantissa * 16 + (lower c - 97 + 10) }
    else (st, c :: s)

/-- The exponent digit loop of `readFloat`: `e` saturates once it reaches
10000; returns `e`, whether an underscore was seen, and the text not consumed. -/
def exponentLoop : List Char → Nat → Bool → Nat × Bool × List Char
  | [], e, u => (e, u, [])
  | c :: s, e, u =>
    if c = '_' then exponentLoop s e true
    else if isDecDigit c then
      exponentLoop s (if e < 10000 then e * 10 + (c.toNat - 48) else e) u
    else (e, u, c :: s)

/-- The loop of `underscoreOK`, with its local `saw`. -/
def underscoreOKLoop (hex : Bool) : List Char → Char → Bool
  | [], saw => saw != '_'
  | c :: s, saw =>
    if isDecDigit c || (hex && isHexLetter c) then underscoreOKLoop hex s '0'
    else if c = '_' then
      if saw ≠ '0' then false else underscoreOKLoop hex s '_'
    else if saw = '_' then false
    else underscoreOKLoop hex s '!'

/-- Go's `underscoreOK(s)`: underscores appear only between digits or between
a base prefix and a digit. -/
def underscoreOK (s : List Char) : Bool :=
  let s1 := match s with
    | c :: t => if c = '-' ∨ c = '+' then t else s
    | [] => s
  match s1 with
  | c0 :: c1 :: t =>
    if c0 = '0' ∧ (lower c1 = 98 ∨ lower c1 = 111 ∨ lower c1 = 120) then
      underscoreOKLoop (lower c1 == 120) t '0'
    else underscoreOKLoop false s1 '^'
  | _ => underscoreOKLoop false s1 '^'

/-- What `readFloat` returns, as far as acceptance needs it: the exact
mantissa, the power `exp` of the base (10, or 2 when `hex`) it is scaled by,
the number `i` of bytes consumed, and `ok`. -/
structure ReadFloat where
  mantissa : Nat
  exp : Int
  hex : Bool
  i : Nat
  ok : Bool
deriving DecidableEq, Repr

/-- Go's `readFloat(s)`. -/
def readFloat (s : List Char) : ReadFloat :=
  let bad : ReadFloat := { mantissa := 0, exp := 0, hex := false, i := 0, ok := false }
  match s with
  | [] => bad
  | c :: t =>
    let s1 := if c = '+' ∨ c = '-' then t else s
    let hex : Bool := match s1 with
      | c0 :: c1 :: _ :: _ => decide (c0 = '0') && decide (lower c1 = 120)
      | _ => false
    let s2 := if hex then s1.drop 2 else s1
    match mantissaLoop hex s2
        { mantissa := 0, nd := 0, dp := 0, sawdot := false, sawdigits := false,
          underscores := false } with
    | (st, s3) =>
      if !st.sawdigits then bad
      else
        let dp0 : Int := if st.sawdot then st.dp else st.nd
        let dp1 : Int := if hex then dp0 * 4 else dp0
        let ndMant : Int := if hex then (st.nd : Int) * 4 else st.nd
        let finish (dp : Int) (u : Bool) (rest : List Char) : ReadFloat :=
          let i := s.length - rest.length
          if u && !underscoreOK (s.take i) then bad
          else { mantissa := st.mantissa, exp := dp - ndMant, hex := hex, i := i, ok := true }
        match s3 with
        | [] => if hex then bad else finish dp1 st.underscores []
        | x :: s4 =>
          if lower x = (if hex then 112 else 101) then
            match s4 with
            | [] => bad
            | y :: s5 =>
              let s6 := if y = '+' ∨ y = '-' then s5 else s4
              match s6 with
              | [] => bad
              | z :: _ =>
                if !isDecDigit z then bad
                else
                  match exponentLoop s6 0 st.underscores with
                  | (e, u, rest) =>
                    finish (dp1 + (if y = '-' then -(e : Int) else e)) u rest
          else if hex then bad
          else finish dp1 st.underscores s3

/-- The magnitude from which the nearest `float64` is infinite:
`2^1024 - 2^970`, written as `(2^54 - 1) * 2^970`. -/
def float64Overflow : Nat := (2 ^ 54 - 1) <<< 970

/-- Whether `mantissa * base ^ exp` rounds to an infinite `float64`. -/
def rangeError (r : ReadFloat) : Bool :=
  let base : Nat := if r.hex then 2 else 10
  if 0 ≤ r.exp then decide (float64Overflow ≤ r.mantissa * base ^ r.exp.toNat)
  else decide (float64Overflow * base ^ (-r.exp).toNat ≤ r.mantissa)

/-- Whether `strconv.ParseFloat(s, 64)` returns a nil error. -/
def parseFloatOk (s : List Char) : Bool :=
  match special s with
  | (n, true) => n == s.length
  | (_, false) =>
    let r := readFloat s
    r.ok && r.i == s.length && !rangeError r

/-- The function `isNumeric`. -/
def isNumeric (s : String) : Bool := parseFloatOk s.data

/-! ## Reclassification and entry point -/

/-- The function `parseIdentifer`: every token of type `IDENTIFER` whose
literal is numeric gets the type `NUMBER`; the error is always `nil`. -/
def parseIdentifer (tokens : List Token) : List Token × Option Error :=
  (tokens.map fun t =>
      if t.Typ = "IDENTIFER" then
        if isNumeric t.Literal then { t with Typ := "NUMBER" } else t
      else t,
   none)

/-- The function `Parse`, on a reader over the in-memory text `input`. -/
def Parse (input : String) : Outcome (List Token × Option Error) :=
  match parseSimpleTokens input with
  | Outcome.ret (tokens, err) =>
    if err ≠ none ∧ err ≠ some Error.EOF then Outcome.ret (tokens, err)
    else Outcome.ret (parseIdentifer tokens)
  | Outcome.panic c => Outcome.panic c
  | Outcome.fuel => Outcome.fuel

/-- The reconstruction of `TestParse`: the literals in order, each `STRING`
literal wrapped in double quotes again. -/
def reconstruct (tokens : List Token) : String :=
  tokens.foldl
    (fun aux tok =>
      if tok.Typ = "STRING" then aux ++ (String.singleton quote ++ tok.Literal ++ String.singleton quote)
      else aux ++ tok.Literal)
    ""

/-! ## Notions used in the statements -/

/-- The numerals of the boundary cases. -/
def numeralCases : List String :=
  ["1E2", "1E-5", "1.6543E2", "0.89E2", "156819129", "1E0", "0E1", "+10", "-10"]

/-- The identifiers of the boundary cases. -/
def identifierCases : List String := ["f", "print", "+", "-"]

/-- The text a token stands for in the reconstruction. -/
def Token.text (tok : Token) : String :=
  if tok.Typ = "STRING" then String.singleton quote ++ tok.Literal ++ String.singleton quote
  else tok.Literal

/-- A recognizer step from `l` to `l1` consumed the current rune of `l` and
part of its unread text into tokens: the reconstruction of the tokens followed
by the unread text is preserved, and the unread text did not grow. -/
def Consumed (l l1 : lexer) : Prop :=
  l1.reader.unread.length ≤ l.reader.unread.length ∧
  (reconstruct l1.tokens).data ++ l1.reader.unread =
    (reconstruct l.tokens).data ++ l.tokRune :: l.reader.unread

/-- Whether `parseSimpleTokens` leaves its loop by the `break`, that is
whether the end of the input is met by the loop's own `ReadRune` and not
inside a recognizer. -/
def endsAtBreak (input : String) : Bool :=
  match scanLoop (input.data.length + 1) (initLexer input) with
  | Outcome.ret (LoopExit.atBreak _) => true
  | _ => false

/-- The text `s`, read after the rune `last`, has every double quote right
after a backslash and does not end on a backslash (nor is empty after one):
the string loop started with `lastRune = last` reads all of `s` as content and
stops at a double quote that follows it. -/
def escapedOnly : Char → List Char → Prop
  | last, [] => last ≠ backslash
  | last, c :: s => (c = quote → last = backslash) ∧ escapedOnly c s

/-- No rune `|` of the text is immediately followed by a rune `#`. -/
def noCloser : List Char → Prop
  | c :: d :: s => ¬ (c = bar ∧ d = hash) ∧ noCloser (d :: s)
  | _ => True

/-- The number of bytes of the UTF-8 encoding of a text. -/
def utf8Len : List Char → Int
  | [] => 0
  | c :: s => (c.utf8Size : Int) + utf8Len s

/-- The token types the recognizers give. -/
def scanTypes : List String :=
  ["SEPARATOR", "SINGLE-LINE-COMMENT", "MULTIPLE-LINE-COMMENT", "LIST-BEGIN", "LIST-END",
   "STRING", "IDENTIFER"]

/-- The bytes a token's text has and its offset does not count: one for a
`MULTIPLE-LINE-COMMENT` (whose closing `#` is read without advancing the
offset), none otherwise. -/
def Token.uncounted (tok : Token) : Int :=
  if tok.Typ = "MULTIPLE-LINE-COMMENT" then 1 else 0

/-- A recognizer step from `l` (current rune read and counted) to `l1`
appended exactly one token, of a type in `scanTypes`, whose offset is the
offset reached, that is the offset before the current rune plus the bytes of
the token's text, less the uncounted ones. -/
def Emitted (l l1 : lexer) : Prop :=
  ∃ t : Token, l1.tokens = l.tokens ++ [t] ∧ t.Typ ∈ scanTypes ∧ t.Offset = l1.offset ∧
    l1.offset = l.offset - (l.tokRune.utf8Size : Int) + utf8Len t.text.data - t.uncounted

/-- Each token's offset is the offset of the token before it (`base` for the
first) plus the bytes of its own text, less the uncounted ones. -/
def offsetsFrom : Int → List Token → Prop
  | _, [] => True
  | base, t :: ts => t.Offset = base + utf8Len t.text.data - t.uncounted ∧ offsetsFrom t.Offset ts

/-- What `parseIdentifer` does to one token. -/
def reclassify (t : Token) : Token :=
  if t.Typ = "IDENTIFER" then
    if isNumeric t.Literal then { t with Typ := "NUMBER" } else t
  else t

/-- The tokens of the input `(+ 1 1)`. -/
def plusOneOneTokens : List Token :=
  [⟨"LIST-BEGIN", "(", 0, 0, 1⟩, ⟨"IDENTIFER", "+", 0, 0, 2⟩, ⟨"SEPARATOR", " ", 0, 0, 3⟩,
   ⟨"NUMBER", "1", 0, 0, 4⟩, ⟨"SEPARATOR", " ", 0, 0, 5⟩, ⟨"NUMBER", "1", 0, 0, 6⟩,
   ⟨"LIST-END", ")", 0, 0, 7⟩]

/-! ## Forms of the literals `strconv.ParseFloat` accepts -/

/-- The text after an optional sign. -/
def dropSign : List Char → List Char
  | [] => []
  | c :: t => if c = '+' ∨ c = '-' then t else c :: t

/-- The decimal numeral form: an optional sign, digits with an optional point
before, among or after them (at least one digit), and an optional exponent
marker `E` or `e` with an optional sign and digits. -/
def decimalForm (s : List Char) : Bool :=
  let ip := (dropSign s).takeWhile isDecDigit
  let r1 := (dropSign s).dropWhile isDecDigit
  let fp := match r1 with
    | c :: t => if c = '.' then t.takeWhile isDecDigit else []
    | [] => []
  let r2 := match r1 with
    | c :: t => if c = '.' then t.dropWhile isDecDigit else r1
    | [] => []
  (!ip.isEmpty || !fp.isEmpty) &&
    match r2 with
    | [] => true
    | x :: t =>
      (decide (x = 'e') || decide (x = 'E')) && !(dropSign t).isEmpty &&
        (dropSign t).all isDecDigit

/-- The code of a letter in lower case (other codes unchanged). -/
def lowerCode (c : Char) : Nat :=
  if 65 ≤ c.toNat ∧ c.toNat ≤ 90 then c.toNat + 32 else c.toNat

/-- The spellings of infinity and NaN, in lower case. -/
def specialNames : List String :=
  ["inf", "+inf", "-inf", "infinity", "+infinity", "-infinity", "nan"]

/-- The special form: one of `specialNames`, in any letter case. -/
def specialForm (s : List Char) : Bool :=
  decide (s.map lowerCode ∈ specialNames.map (fun n => n.data.map Char.toNat))

/-- The hexadecimal form: after an optional sign, `0x` or `0X` and at least
one more code point. -/
def hexForm (s : List Char) : Bool :=
  match dropSign s with
  | c0 :: c1 :: _ :: _ => decide (c0 = '0') && (decide (c1 = 'x') || decide (c1 = 'X'))
  | _ => false

/-! ## The reclassification pass -/

theorem isNumeric_numeralCases (s : String) (h : s ∈ numeralCases) : isNumeric s = true := by
  simp only [numeralCases, List.mem_cons, List.mem_singleton, List.not_mem_nil, or_false] at h
  rcases h with h | h | h | h | h | h | h | h | h <;> subst h <;> decide

theorem isNumeric_identifierCases (s : String) (h : s ∈ identifierCases) :
    isNumeric s = false := by
  simp only [identifierCases, List.mem_cons, List.mem_singleton, List.not_mem_nil, or_false] at h
  rcases h with h | h | h | h <;> subst h <;> decide

theorem parseIdentifer_fst (ts : List Token) :
    (parseIdentifer ts).1 = ts.map (fun t =>
      if t.Typ = "IDENTIFER" then
        if isNumeric t.Literal then { t with Typ := "NUMBER" } else t
      else t) := rfl

/-- C8: `parseIdentifer` gives the type `NUMBER` to every `IDENTIFER` token
whose literal is one of 1E2, 1E-5, 1.6543E2, 0.89E2, 156819129, 1E0, 0E1, +10,
-10, and returns unchanged every `IDENTIFER` token whose literal is one of
f, print, +, -. -/
theorem parseIdentifer_boundary_cases (ts : List Token) (i : Nat) (t : Token)
    (hi : ts[i]? = some t) (hT : t.Typ = "IDENTIFER") :
    (t.Literal ∈ numeralCases →
      (parseIdentifer ts).1[i]? = some { t with Typ := "NUMBER" }) ∧
    (t.Literal ∈ identifierCases → (parseIdentifer ts).1[i]? = some t) := by
  refine ⟨fun h => ?_, fun h => ?_⟩
  · simp [parseIdentifer_fst, List.getElem?_map, hi, hT, isNumeric_numeralCases _ h]
  · simp [parseIdentifer_fst, List.getElem?_map, hi, hT, isNumeric_identifierCases _ h]

/-- Witness of `parseIdentifer_boundary_cases`: the token `IDENTIFER 1E-5`
between two other tokens. -/
theorem parseIdentifer_boundary_cases_witness :
    (("1E-5" ∈ numeralCases →
      (parseIdentifer [⟨"SEPARATOR", " ", 0, 0, 1⟩, ⟨"IDENTIFER", "1E-5", 0, 0, 5⟩,
        ⟨"IDENTIFER", "print", 0, 0, 11⟩]).1[1]? = some ⟨"NUMBER", "1E-5", 0, 0, 5⟩) ∧
     ("1E-5" ∈ identifierCases →
      (parseIdentifer [⟨"SEPARATOR", " ", 0, 0, 1⟩, ⟨"IDENTIFER", "1E-5", 0, 0, 5⟩,
        ⟨"IDENTIFER", "print", 0, 0, 11⟩]).1[1]? = some ⟨"IDENTIFER", "1E-5", 0, 0, 5⟩)) ∧
    "1E-5" ∈ numeralCases :=
  ⟨parseIdentifer_boundary_cases
      [⟨"SEPARATOR", " ", 0, 0, 1⟩, ⟨"IDENTIFER", "1E-5", 0, 0, 5⟩,
        ⟨"IDENTIFER", "print", 0, 0, 11⟩] 1 ⟨"IDENTIFER", "1E-5", 0, 0, 5⟩ rfl rfl,
   by decide⟩

/-- C9: running `parseIdentifer` on its own result gives the same result as
running it once. -/
theorem parseIdentifer_idempotent (ts : List Token) :
    parseIdentifer (parseIdentifer ts).1 = parseIdentifer ts := by
  have hne : ¬ ("NUMBER" = "IDENTIFER") := by decide
  simp only [parseIdentifer, List.map_map, Prod.mk.injEq, and_true]
  apply List.map_congr_left
  intro t _
  simp only [Function.comp]
  by_cases hT : t.Typ = "IDENTIFER"
  · by_cases hN : isNumeric t.Literal = true
    · simp [hT, hN]
    · simp [hT, hN]
  · simp [hT]

/-- C10: `parseIdentifer` keeps the length of the sequence and, at every
index, the literal, line, column and offset; a token whose type is not
`IDENTIFER` comes back unchanged and one whose type is `IDENTIFER` comes back
with type `IDENTIFER` or `NUMBER`. -/
theorem parseIdentifer_frame (ts : List Token) (i : Nat) (t : Token)
    (hi : ts[i]? = some t) :
    (parseIdentifer ts).1.length = ts.length ∧
    ∃ u, (parseIdentifer ts).1[i]? = some u ∧
      u.Literal = t.Literal ∧ u.Line = t.Line ∧ u.Column = t.Column ∧
      u.Offset = t.Offset ∧
      (t.Typ ≠ "IDENTIFER" → u = t) ∧
      (t.Typ = "IDENTIFER" → u.Typ = "IDENTIFER" ∨ u.Typ = "NUMBER") := by
  refine ⟨by simp [parseIdentifer_fst], ?_⟩
  by_cases hT : t.Typ = "IDENTIFER"
  · by_cases hN : isNumeric t.Literal = true
    · exact ⟨{ t with Typ := "NUMBER" },
        by simp [parseIdentifer_fst, List.getElem?_map, hi, hT, hN], rfl, rfl, rfl, rfl,
        fun h => absurd hT h, fun _ => Or.inr rfl⟩
    · exact ⟨t, by simp [parseIdentifer_fst, List.getElem?_map, hi, hT, hN], rfl, rfl, rfl,
        rfl, fun _ => rfl, fun h => Or.inl h⟩
  · exact ⟨t, by simp [parseIdentifer_fst, List.getElem?_map, hi, hT], rfl, rfl, rfl, rfl,
      fun _ => rfl, fun h => absurd h hT⟩

/-- Witness of `parseIdentifer_frame`: the second of three tokens. -/
theorem parseIdentifer_frame_witness :
    (parseIdentifer [⟨"LIST-BEGIN", "(", 0, 0, 1⟩, ⟨"IDENTIFER", "+10", 0, 0, 4⟩,
        ⟨"LIST-END", ")", 0, 0, 5⟩]).1.length = 3 ∧
    ∃ u, (parseIdentifer [⟨"LIST-BEGIN", "(", 0, 0, 1⟩, ⟨"IDENTIFER", "+10", 0, 0, 4⟩,
        ⟨"LIST-END", ")", 0, 0, 5⟩]).1[1]? = some u ∧
      u.Literal = "+10" ∧ u.Line = 0 ∧ u.Column = 0 ∧ u.Offset = 4 ∧
      ("IDENTIFER" ≠ "IDENTIFER" → u = ⟨"IDENTIFER", "+10", 0, 0, 4⟩) ∧
      ("IDENTIFER" = "IDENTIFER" → u.Typ = "IDENTIFER" ∨ u.Typ = "NUMBER") :=
  parseIdentifer_frame
    [⟨"LIST-BEGIN", "(", 0, 0, 1⟩, ⟨"IDENTIFER", "+10", 0, 0, 4⟩, ⟨"LIST-END", ")", 0, 0, 5⟩]
    1 ⟨"IDENTIFER", "+10", 0, 0, 4⟩ rfl

/-! ## Concrete scans -/

/-- C6: `Parse` on the seven characters `(+ 1 1)` returns no error and the
seven tokens LIST-BEGIN `(`, IDENTIFER `+`, SEPARATOR ` `, NUMBER `1`,
SEPARATOR ` `, NUMBER `1`, LIST-END `)`, in that order. -/
theorem Parse_plus_one_one :
    Parse "(+ 1 1)" = Outcome.ret
      ([⟨"LIST-BEGIN", "(", 0, 0, 1⟩, ⟨"IDENTIFER", "+", 0, 0, 2⟩,
        ⟨"SEPARATOR", " ", 0, 0, 3⟩, ⟨"NUMBER", "1", 0, 0, 4⟩,
        ⟨"SEPARATOR", " ", 0, 0, 5⟩, ⟨"NUMBER", "1", 0, 0, 6⟩,
        ⟨"LIST-END", ")", 0, 0, 7⟩], none) := by
  decide

/-! ## The rune scanner and the inner loops -/

theorem ReadRune_nil (b : RuneScanner) (h : b.unread = []) :
    b.ReadRune = (Char.ofNat 0, 0, some Error.EOF, ⟨[], none⟩) := by
  simp [RuneScanner.ReadRune, h]

theorem ReadRune_cons (b : RuneScanner) (c : Char) (rest : List Char) (h : b.unread = c :: rest) :
    b.ReadRune = (c, (c.utf8Size : Int), none, ⟨rest, some c⟩) := by
  simp [RuneScanner.ReadRune, h]

theorem UnreadRune_some (c : Char) (rest : List Char) :
    RuneScanner.UnreadRune ⟨rest, some c⟩ = (none, ⟨c :: rest, none⟩) := rfl

/-- The loop of `singleLineCommentTok` returns within the bound; what it
accumulates and what it leaves unread make up what it started from. -/
theorem singleLineCommentLoop_spec (n : Nat) :
    ∀ (l : lexer) (value : String), l.reader.unread.length < n →
      ∃ l1 v e, singleLineCommentLoop n l value = Outcome.ret (l1, v, e) ∧
        (e = none ∨ e = some Error.EOF) ∧ l1.tokens = l.tokens ∧
        (e = none → v.data ++ l1.reader.unread = value.data ++ l.reader.unread ∧
          l1.reader.unread.length ≤ l.reader.unread.length) := by
  induction n with
  | zero => intro l value h; omega
  | succ n ih =>
    intro l value h
    unfold singleLineCommentLoop
    by_cases hnl : l.tokRune = newline
    · exact ⟨l, value, none, by simp [hnl], Or.inl rfl, rfl, fun _ => ⟨rfl, le_refl _⟩⟩
    · cases hu : l.reader.unread with
      | nil =>
        exact ⟨{ l with tokRune := Char.ofNat 0, reader := ⟨[], none⟩ }, value, some Error.EOF,
          by simp [hnl, ReadRune_nil _ hu], Or.inr rfl, rfl, fun he => by simp at he⟩
      | cons c rest =>
        rw [hu] at h
        simp only [List.length_cons] at h
        obtain ⟨l1, v, e, h1, h2, h3, h4⟩ :=
          ih { l with tokRune := c, reader := ⟨rest, some c⟩,
                      offset := l.offset + (c.utf8Size : Int) } (value.push c)
            (by simpa using h)
        refine ⟨l1, v, e, ?_, h2, h3, ?_⟩
        · simp [hnl, ReadRune_cons _ c rest hu, h1]
        · intro he
          obtain ⟨h5, h6⟩ := h4 he
          simp only [String.data_push, List.append_assoc, List.singleton_append] at h5
          exact ⟨h5, by simp at h6 ⊢; omega⟩


/-- The loop of `stringTok` returns within the bound; with a nil error it
stopped at a closing quote. -/
theorem stringLoop_spec (n : Nat) :
    ∀ (l : lexer) (value : String) (lastRune : Char), l.reader.unread.length < n →
      ∃ l1 v e, stringLoop n l value lastRune = Outcome.ret (l1, v, e) ∧
        (e = none ∨ e = some Error.EOF) ∧ l1.tokens = l.tokens ∧
        (e = none → v.data ++ quote :: l1.reader.unread = value.data ++ l.reader.unread ∧
          l1.reader.unread.length ≤ l.reader.unread.length) := by
  induction n with
  | zero => intro l value lastRune h; omega
  | succ n ih =>
    intro l value lastRune h
    unfold stringLoop
    cases hu : l.reader.unread with
    | nil =>
      exact ⟨{ l with tokRune := Char.ofNat 0, reader := ⟨[], none⟩ }, value, some Error.EOF,
        by simp [ReadRune_nil _ hu], Or.inr rfl, rfl, fun he => by simp at he⟩
    | cons c rest =>
      rw [hu] at h
      simp only [List.length_cons] at h
      by_cases hq : lastRune ≠ backslash ∧ c = quote
      · refine ⟨{ l with tokRune := c, reader := ⟨rest, some c⟩,
                         offset := l.offset + (c.utf8Size : Int) }, value, none,
          by simp [ReadRune_cons _ c rest hu, hq], Or.inl rfl, rfl, fun _ => ?_⟩
        simp [hq.2]
      · obtain ⟨l1, v, e, h1, h2, h3, h4⟩ :=
          ih { l with tokRune := c, reader := ⟨rest, some c⟩,
                      offset := l.offset + (c.utf8Size : Int) } (value.push c) c
            (by simpa using h)
        refine ⟨l1, v, e, ?_, h2, h3, ?_⟩
        · simp only [ReadRune_cons _ c rest hu, hq, if_false, h1]
        · intro he
          obtain ⟨h5, h6⟩ := h4 he
          simp only [String.data_push, List.append_assoc, List.singleton_append] at h5
          exact ⟨h5, by simp at h6 ⊢; omega⟩

/-- The loop of `identiferTok`, entered on a rune that is not a separator,
returns within the bound with `ok` set. -/
theorem identiferLoop_spec (n : Nat) :
    ∀ (l : lexer) (identifer : String) (ok : Bool) (err : Option Error),
      isIdentiferSeparator l.tokRune = false → l.reader.unread.length < n →
      ∃ l1 v e, identiferLoop n l identifer ok err = Outcome.ret (l1, v, true, e) ∧
        (e = none ∨ e = some Error.EOF) ∧ l1.tokens = l.tokens ∧
        (e = none →
          v.data ++ l1.reader.unread = identifer.data ++ l.tokRune :: l.reader.unread ∧
          l1.reader.unread.length ≤ l.reader.unread.length) := by
  induction n with
  | zero => intro l identifer ok err _ h; omega
  | succ n ih =>
    intro l identifer ok err hs h
    unfold identiferLoop
    cases hu : l.reader.unread with
    | nil =>
      exact ⟨{ l with tokRune := Char.ofNat 0, reader := ⟨[], none⟩ }, identifer.push l.tokRune,
        some Error.EOF, by simp [hs, ReadRune_nil _ hu], Or.inr rfl, rfl, fun he => by simp at he⟩
    | cons c rest =>
      rw [hu] at h
      simp only [List.length_cons] at h
      cases hc : isIdentiferSeparator c with
      | true =>
        exact ⟨{ l with tokRune := c, reader := ⟨c :: rest, none⟩ }, identifer.push l.tokRune,
          none, by simp [hs, ReadRune_cons _ c rest hu, hc, UnreadRune_some], Or.inl rfl, rfl,
          fun _ => by simp⟩
      | false =>
        obtain ⟨l1, v, e, h1, h2, h3, h4⟩ :=
          ih { l with tokRune := c, reader := ⟨rest, some c⟩,
                      offset := l.offset + (c.utf8Size : Int) } (identifer.push l.tokRune) true
            none hc (by simpa using h)
        refine ⟨l1, v, e, ?_, h2, h3, ?_⟩
        · simp [hs, ReadRune_cons _ c rest hu, hc, h1]
        · intro he
          obtain ⟨h5, h6⟩ := h4 he
          simp only [String.data_push, List.append_assoc, List.singleton_append] at h5
          exact ⟨h5, by simp at h6 ⊢; omega⟩

theorem ifRunePattern_ne (l : lexer) (p0 p1 : Char) (h : l.tokRune ≠ p0) :
    l.ifRunePattern p0 p1 = (false, none, l) := by
  simp [lexer.ifRunePattern, h]

theorem ifRunePattern_nil (l : lexer) (p0 p1 : Char) (h : l.tokRune = p0)
    (hu : l.reader.unread = []) :
    l.ifRunePattern p0 p1 =
      (Char.ofNat 0 == p1, some Error.EOF, { l with reader := ⟨[], none⟩ }) := by
  simp [lexer.ifRunePattern, lexer.peekRune, h, ReadRune_nil _ hu]

theorem ifRunePattern_cons (l : lexer) (p0 p1 d : Char) (rest : List Char)
    (h : l.tokRune = p0) (hu : l.reader.unread = d :: rest) :
    l.ifRunePattern p0 p1 = (d == p1, none, { l with reader := ⟨d :: rest, none⟩ }) := by
  simp [lexer.ifRunePattern, lexer.peekRune, h, ReadRune_cons _ d rest hu, UnreadRune_some]


/-- The loop of `multipleLineCommentTok` returns within the bound: either from
inside the loop with `io.EOF`, or by its `break` with a nil error and the
closer consumed. -/
theorem multipleLineCommentLoop_spec (n : Nat) :
    ∀ (l : lexer) (value : String) (ok : Bool), l.reader.unread.length < n →
      ∃ ov ok1 e l1, multipleLineCommentLoop n l value ok = Outcome.ret (ov, ok1, e, l1) ∧
        l1.tokens = l.tokens ∧
        ((ov = none ∧ e = some Error.EOF) ∨
         (∃ v, ov = some v ∧ ok1 = true ∧ e = none ∧
            v.data ++ l1.reader.unread = value.data ++ l.reader.unread ∧
            l1.reader.unread.length ≤ l.reader.unread.length)) := by
  induction n with
  | zero => intro l value ok h; omega
  | succ n ih =>
    intro l value ok h
    unfold multipleLineCommentLoop
    cases hu : l.reader.unread with
    | nil =>
      exact ⟨none, ok, some Error.EOF, { l with tokRune := Char.ofNat 0, reader := ⟨[], none⟩ },
        by simp [ReadRune_nil _ hu], rfl, Or.inl ⟨rfl, rfl⟩⟩
    | cons c rest =>
      rw [hu] at h
      simp only [List.length_cons] at h
      by_cases hc : c = bar
      · cases rest with
        | nil =>
          refine ⟨none, Char.ofNat 0 == hash, some Error.EOF,
            { l with tokRune := c, reader := ⟨[], none⟩,
                     offset := l.offset + (c.utf8Size : Int) }, ?_, rfl, Or.inl ⟨rfl, rfl⟩⟩
          simp only [ReadRune_cons _ c [] hu]
          rw [ifRunePattern_nil _ bar hash hc rfl]
        | cons d rest1 =>
          by_cases hd : d = hash
          · refine ⟨some (value.push c ++ "#"), true, none,
              { l with tokRune := c, reader := ⟨rest1, some d⟩,
                       offset := l.offset + (c.utf8Size : Int) }, ?_, rfl,
              Or.inr ⟨_, rfl, rfl, rfl, ?_, ?_⟩⟩
            · simp only [ReadRune_cons _ c (d :: rest1) hu]
              rw [ifRunePattern_cons _ bar hash d rest1 hc rfl]
              simp [hd, RuneScanner.ReadRune]
            · simp [hd]; rfl
            · simp only [List.length_cons]; omega
          · obtain ⟨ov, ok1, e, l1, h1, h2, h3⟩ :=
              ih { l with tokRune := c, reader := ⟨d :: rest1, none⟩,
                          offset := l.offset + (c.utf8Size : Int) } (value.push c) (d == hash)
                (by simpa using h)
            refine ⟨ov, ok1, e, l1, ?_, h2, ?_⟩
            · simp only [ReadRune_cons _ c (d :: rest1) hu]
              rw [ifRunePattern_cons _ bar hash d rest1 hc rfl]
              simp [hd, h1]
            · rcases h3 with h3 | ⟨v, h4, h5, h6, h7, h8⟩
              · exact Or.inl h3
              · refine Or.inr ⟨v, h4, h5, h6, ?_, ?_⟩
                · simpa using h7
                · simp at h8 ⊢; omega
      · obtain ⟨ov, ok1, e, l1, h1, h2, h3⟩ :=
          ih { l with tokRune := c, reader := ⟨rest, some c⟩,
                      offset := l.offset + (c.utf8Size : Int) } (value.push c) false
            (by simpa using h)
        refine ⟨ov, ok1, e, l1, ?_, h2, ?_⟩
        · simp only [ReadRune_cons _ c rest hu]
          rw [ifRunePattern_ne _ bar hash hc]
          simp [h1]
        · rcases h3 with h3 | ⟨v, h4, h5, h6, h7, h8⟩
          · exact Or.inl h3
          · refine Or.inr ⟨v, h4, h5, h6, ?_, ?_⟩
            · simpa using h7
            · simp at h8 ⊢; omega


/-! ## Reconstruction -/

theorem reconstruct_append (ts : List Token) (tok : Token) :
    reconstruct (ts ++ [tok]) = reconstruct ts ++ tok.text := by
  simp only [reconstruct, List.foldl_append, List.foldl_cons, List.foldl_nil, Token.text]
  split <;> simp [String.append_assoc]

theorem reconstruct_appendTok_data (l : lexer) (v ty : String) :
    (reconstruct (l.appendTok v ty).tokens).data =
      (reconstruct l.tokens).data ++
        (if ty = "STRING" then quote :: (v.data ++ [quote]) else v.data) := by
  simp only [lexer.appendTok, reconstruct_append, Token.text, String.data_append]
  split <;> simp

theorem appendTok_unread (l : lexer) (v ty : String) :
    (l.appendTok v ty).reader = l.reader := rfl

/-! ## One dispatch of the recognizers -/

theorem runParsers_hit (f : tokenFunction) (fs : List tokenFunction) (l l1 : lexer)
    (ok : Bool) (e : Option Error) (h : f l = Outcome.ret (ok, e, l1))
    (hok : e = none → ok = true) : runParsers (f :: fs) l = Outcome.ret (e, l1) := by
  cases e with
  | none => simp [runParsers, h, hok rfl]
  | some e => simp [runParsers, h]

theorem runParsers_miss (f : tokenFunction) (fs : List tokenFunction) (l l1 : lexer)
    (h : f l = Outcome.ret (false, none, l1)) : runParsers (f :: fs) l = runParsers fs l1 := by
  simp [runParsers, h]

theorem separatorTok_miss (l : lexer) (h : isWhitespace l.tokRune = false) :
    separatorTok l = Outcome.ret (false, none, l) := by
  simp [separatorTok, h]

theorem singleLineCommentTok_miss (l : lexer) (h : l.tokRune ≠ semicolon) :
    singleLineCommentTok l = Outcome.ret (false, none, l) := by
  simp [singleLineCommentTok, h]

theorem multipleLineCommentTok_miss (l : lexer) (h : l.tokRune ≠ hash) :
    multipleLineCommentTok l = Outcome.ret (false, none, l) := by
  simp [multipleLineCommentTok, ifRunePattern_ne _ hash bar h]

theorem listBeginTok_miss (l : lexer) (h : l.tokRune ≠ lparen) :
    listBeginTok l = Outcome.ret (false, none, l) := by
  simp [listBeginTok, h]

theorem listEndTok_miss (l : lexer) (h : l.tokRune ≠ rparen) :
    listEndTok l = Outcome.ret (false, none, l) := by
  simp [listEndTok, h]

theorem stringTok_miss (l : lexer) (h : l.tokRune ≠ quote) :
    stringTok l = Outcome.ret (false, none, l) := by
  unfold stringTok
  rw [if_neg h]

/-- On a rune that is not a separator `identiferTok` reports a match or an
end of input. -/
theorem identiferTok_hit (l : lexer) (h : isIdentiferSeparator l.tokRune = false) :
    ∃ e l1, identiferTok l = Outcome.ret (true, e, l1) ∧ (e = none ∨ e = some Error.EOF) ∧
      (e = none → Consumed l l1) := by
  obtain ⟨l1, v, e, h1, h2, h3, h4⟩ :=
    identiferLoop_spec (l.reader.unread.length + 1) l "" false none h (Nat.lt_succ_self _)
  have hk : identiferTok l = Outcome.ret (true, e, l1.appendTok v "IDENTIFER") := by
    unfold identiferTok
    rw [h1]
    rfl
  refine ⟨e, l1.appendTok v "IDENTIFER", hk, h2, fun he => ?_⟩
  obtain ⟨h5, h6⟩ := h4 he
  refine ⟨h6, ?_⟩
  have hne : ¬ ("IDENTIFER" = "STRING") := by decide
  rw [reconstruct_appendTok_data, if_neg hne, appendTok_unread, List.append_assoc, h5, h3]
  rfl

/-- On a double quote `stringTok` reports a match, with a nil error or an end
of input. -/
theorem stringTok_hit (l : lexer) (h : l.tokRune = quote) :
    ∃ e l1, stringTok l = Outcome.ret (true, e, l1) ∧ (e = none ∨ e = some Error.EOF) ∧
      (e = none → Consumed l l1) := by
  obtain ⟨l1, v, e, h1, h2, h3, h4⟩ :=
    stringLoop_spec (l.reader.unread.length + 1) l "" (Char.ofNat 0) (Nat.lt_succ_self _)
  refine ⟨e, l1.appendTok v "STRING", by simp [stringTok, h, h1], h2, fun he => ?_⟩
  obtain ⟨h5, h6⟩ := h4 he
  refine ⟨h6, ?_⟩
  rw [reconstruct_appendTok_data, if_pos rfl, appendTok_unread, h3, h]
  simp only [List.append_assoc, List.cons_append, List.singleton_append, List.nil_append]
  rw [h5]
  simp

/-- On a semicolon `singleLineCommentTok` reports a match, with a nil error or
an end of input. -/
theorem singleLineCommentTok_hit (l : lexer) (h : l.tokRune = semicolon) :
    ∃ e l1, singleLineCommentTok l = Outcome.ret (true, e, l1) ∧
      (e = none ∨ e = some Error.EOF) ∧ (e = none → Consumed l l1) := by
  obtain ⟨l1, v, e, h1, h2, h3, h4⟩ :=
    singleLineCommentLoop_spec (l.reader.unread.length + 1) l ";" (Nat.lt_succ_self _)
  have hne : ¬ ("SINGLE-LINE-COMMENT" = "STRING") := by decide
  have hsc : (";" : String).data = [semicolon] := by decide
  refine ⟨e, l1.appendTok v "SINGLE-LINE-COMMENT", ?_, h2, fun he => ?_⟩
  · rcases h2 with h2 | h2 <;> subst h2 <;> simp [singleLineCommentTok, h, h1]
  · obtain ⟨h5, h6⟩ := h4 he
    refine ⟨h6, ?_⟩
    rw [reconstruct_appendTok_data, if_neg hne, appendTok_unread, List.append_assoc, h5, h3, hsc,
      h]
    simp


theorem separatorTok_hit (l : lexer) (h : isWhitespace l.tokRune = true) :
    ∃ l1, separatorTok l = Outcome.ret (true, none, l1) ∧ Consumed l l1 := by
  have hne : ¬ ("SEPARATOR" = "STRING") := by decide
  refine ⟨l.appendTok (String.singleton l.tokRune) "SEPARATOR", by simp [separatorTok, h],
    le_refl _, ?_⟩
  rw [reconstruct_appendTok_data, if_neg hne, appendTok_unread]
  simp

theorem listBeginTok_hit (l : lexer) (h : l.tokRune = lparen) :
    ∃ l1, listBeginTok l = Outcome.ret (true, none, l1) ∧ Consumed l l1 := by
  have hne : ¬ ("LIST-BEGIN" = "STRING") := by decide
  have hd : ("(" : String).data = [lparen] := by decide
  refine ⟨l.appendTok "(" "LIST-BEGIN", by simp [listBeginTok, h], le_refl _, ?_⟩
  rw [reconstruct_appendTok_data, if_neg hne, appendTok_unread, hd, h]
  simp

theorem listEndTok_hit (l : lexer) (h : l.tokRune = rparen) :
    ∃ l1, listEndTok l = Outcome.ret (true, none, l1) ∧ Consumed l l1 := by
  have hne : ¬ ("LIST-END" = "STRING") := by decide
  have hd : (")" : String).data = [rparen] := by decide
  refine ⟨l.appendTok ")" "LIST-END", by simp [listEndTok, h], le_refl _, ?_⟩
  rw [reconstruct_appendTok_data, if_neg hne, appendTok_unread, hd, h]
  simp

/-- On a `#` the recognizer `multipleLineCommentTok` either returns `io.EOF`,
or matches a whole comment, or (the next rune is not `|`) reports no match and
leaves the rune, the tokens and the unread text as they were. -/
theorem multipleLineCommentTok_hash (l : lexer) (h : l.tokRune = hash) :
    (∃ ok l1, multipleLineCommentTok l = Outcome.ret (ok, some Error.EOF, l1)) ∨
    (∃ l1, multipleLineCommentTok l = Outcome.ret (true, none, l1) ∧ Consumed l l1) ∨
    (∃ l1, multipleLineCommentTok l = Outcome.ret (false, none, l1) ∧
      l1.tokRune = l.tokRune ∧ l1.tokens = l.tokens ∧ l1.reader.unread = l.reader.unread) := by
  have hne : ¬ ("MULTIPLE-LINE-COMMENT" = "STRING") := by decide
  have hd : ("#" : String).data = [hash] := by decide
  cases hu : l.reader.unread with
  | nil =>
    exact Or.inl ⟨Char.ofNat 0 == bar, { l with reader := ⟨[], none⟩ }, by
      simp [multipleLineCommentTok, ifRunePattern_nil _ hash bar h hu]⟩
  | cons d rest =>
    by_cases hdb : d = bar
    · subst hdb
      obtain ⟨ov, ok1, e, l1, h1, h2, h3⟩ :=
        multipleLineCommentLoop_spec ((bar :: rest).length + 1)
          { l with reader := ⟨bar :: rest, none⟩ } "#" true (Nat.lt_succ_self _)
      simp only [List.length_cons] at h1
      rcases h3 with ⟨h3, h4⟩ | ⟨v, h3, h4, h5, h6, h7⟩
      · subst h3 h4
        exact Or.inl ⟨ok1, l1, by
          simp only [multipleLineCommentTok, ifRunePattern_cons _ hash bar bar rest h hu]
          simp [h1]⟩
      · subst h3 h4 h5
        refine Or.inr (Or.inl ⟨l1.appendTok v "MULTIPLE-LINE-COMMENT", ?_, ?_, ?_⟩)
        · simp only [multipleLineCommentTok, ifRunePattern_cons _ hash bar bar rest h hu]
          simp [h1]
        · rw [appendTok_unread, hu]; exact h7
        · rw [reconstruct_appendTok_data, if_neg hne, appendTok_unread, List.append_assoc, h6,
            h2, hd, h, hu]
          simp
    · exact Or.inr (Or.inr ⟨{ l with reader := ⟨d :: rest, none⟩ }, by
        simp only [multipleLineCommentTok, ifRunePattern_cons _ hash bar d rest h hu]
        simp [hdb], rfl, rfl, rfl⟩)

theorem Consumed_of_same (l l0 l1 : lexer) (h1 : l0.tokRune = l.tokRune)
    (h2 : l0.tokens = l.tokens) (h3 : l0.reader.unread = l.reader.unread)
    (h : Consumed l0 l1) : Consumed l l1 := by
  unfold Consumed at h ⊢
  rw [h1, h2, h3] at h
  exact h

/-- One dispatch of the recognizers never reaches `notImplemented`: it returns,
with a nil error and the current rune consumed into a token, or with `io.EOF`. -/
theorem runParsers_spec (l : lexer) :
    ∃ e l1, runParsers tokenParsers l = Outcome.ret (e, l1) ∧
      (e = none ∨ e = some Error.EOF) ∧ (e = none → Consumed l l1) := by
  unfold tokenParsers
  cases hw : isWhitespace l.tokRune with
  | true =>
    obtain ⟨l1, h1, h2⟩ := separatorTok_hit l hw
    exact ⟨none, l1, runParsers_hit _ _ _ _ _ _ h1 (fun _ => rfl), Or.inl rfl, fun _ => h2⟩
  | false =>
    rw [runParsers_miss _ _ _ _ (separatorTok_miss l hw)]
    by_cases hs : l.tokRune = semicolon
    · obtain ⟨e, l1, h1, h2, h3⟩ := singleLineCommentTok_hit l hs
      exact ⟨e, l1, runParsers_hit _ _ _ _ _ _ h1 (fun _ => rfl), h2, h3⟩
    rw [runParsers_miss _ _ _ _ (singleLineCommentTok_miss l hs)]
    have tail : ∀ l0 : lexer, l0.tokRune = l.tokRune → l0.tokens = l.tokens →
        l0.reader.unread = l.reader.unread →
        ∃ e l1, runParsers [listBeginTok, listEndTok, stringTok, identiferTok, notImplemented] l0
            = Outcome.ret (e, l1) ∧
          (e = none ∨ e = some Error.EOF) ∧ (e = none → Consumed l l1) := by
      intro l0 e1 e2 e3
      by_cases hlp : l0.tokRune = lparen
      · obtain ⟨l1, h1, h2⟩ := listBeginTok_hit l0 hlp
        exact ⟨none, l1, runParsers_hit _ _ _ _ _ _ h1 (fun _ => rfl), Or.inl rfl,
          fun _ => Consumed_of_same l l0 l1 e1 e2 e3 h2⟩
      rw [runParsers_miss _ _ _ _ (listBeginTok_miss l0 hlp)]
      by_cases hrp : l0.tokRune = rparen
      · obtain ⟨l1, h1, h2⟩ := listEndTok_hit l0 hrp
        exact ⟨none, l1, runParsers_hit _ _ _ _ _ _ h1 (fun _ => rfl), Or.inl rfl,
          fun _ => Consumed_of_same l l0 l1 e1 e2 e3 h2⟩
      rw [runParsers_miss _ _ _ _ (listEndTok_miss l0 hrp)]
      by_cases hq : l0.tokRune = quote
      · obtain ⟨e, l1, h1, h2, h3⟩ := stringTok_hit l0 hq
        exact ⟨e, l1, runParsers_hit _ _ _ _ _ _ h1 (fun _ => rfl), h2,
          fun he => Consumed_of_same l l0 l1 e1 e2 e3 (h3 he)⟩
      rw [runParsers_miss _ _ _ _ (stringTok_miss l0 hq)]
      have hsep : isIdentiferSeparator l0.tokRune = false := by
        rw [e1] at hlp hrp ⊢
        simp only [isWhitespace, Bool.or_eq_false_iff, beq_eq_false_iff_ne, ne_eq] at hw
        simp only [isIdentiferSeparator, Bool.or_eq_false_iff, beq_eq_false_iff_ne, ne_eq]
        tauto
      obtain ⟨e, l1, h1, h2, h3⟩ := identiferTok_hit l0 hsep
      exact ⟨e, l1, runParsers_hit _ _ _ _ _ _ h1 (fun _ => rfl), h2,
        fun he => Consumed_of_same l l0 l1 e1 e2 e3 (h3 he)⟩
    by_cases hh : l.tokRune = hash
    · rcases multipleLineCommentTok_hash l hh with ⟨ok, l1, h1⟩ | ⟨l1, h1, h2⟩ | ⟨l1, h1, h2, h3, h4⟩
      · exact ⟨_, l1, runParsers_hit _ _ _ _ _ _ h1 (fun he => by simp at he), Or.inr rfl,
          fun he => by simp at he⟩
      · exact ⟨none, l1, runParsers_hit _ _ _ _ _ _ h1 (fun _ => rfl), Or.inl rfl, fun _ => h2⟩
      · rw [runParsers_miss _ _ _ _ h1]
        exact tail l1 h2 h3 h4
    · rw [runParsers_miss _ _ _ _ (multipleLineCommentTok_miss l hh)]
      exact tail l rfl rfl rfl


/-! ## Stepping the scan loop -/

theorem scanLoop_succ (n : Nat) (l : lexer) :
    scanLoop (n + 1) l =
      match l.reader.ReadRune with
      | (r, size, err, rd) =>
        match err with
        | some Error.EOF => Outcome.ret (LoopExit.atBreak { l with tokRune := r, reader := rd })
        | _ =>
          match runParsers tokenParsers
              { l with tokRune := r, reader := rd, offset := l.offset + size } with
          | Outcome.ret (some e, l1) => Outcome.ret (LoopExit.atReturn l1 e)
          | Outcome.ret (none, l1) => scanLoop n l1
          | Outcome.panic c => Outcome.panic c
          | Outcome.fuel => Outcome.fuel := rfl

theorem scanLoop_nil (n : Nat) (l : lexer) (hu : l.reader.unread = []) :
    scanLoop (n + 1) l =
      Outcome.ret (LoopExit.atBreak { l with tokRune := Char.ofNat 0, reader := ⟨[], none⟩ }) := by
  rw [scanLoop_succ, ReadRune_nil _ hu]

theorem scanLoop_step (n : Nat) (l l1 : lexer) (c : Char) (rest : List Char)
    (hu : l.reader.unread = c :: rest)
    (h : runParsers tokenParsers
      { l with tokRune := c, reader := ⟨rest, some c⟩, offset := l.offset + (c.utf8Size : Int) }
        = Outcome.ret (none, l1)) :
    scanLoop (n + 1) l = scanLoop n l1 := by
  rw [scanLoop_succ, ReadRune_cons _ c rest hu]
  simp only [h]

theorem scanLoop_abort (n : Nat) (l l1 : lexer) (c : Char) (rest : List Char) (e : Error)
    (hu : l.reader.unread = c :: rest)
    (h : runParsers tokenParsers
      { l with tokRune := c, reader := ⟨rest, some c⟩, offset := l.offset + (c.utf8Size : Int) }
        = Outcome.ret (some e, l1)) :
    scanLoop (n + 1) l = Outcome.ret (LoopExit.atReturn l1 e) := by
  rw [scanLoop_succ, ReadRune_cons _ c rest hu]
  simp only [h]

/-! ## The scan loop on every input -/

/-- The scan loop returns within the bound for every input: by its `break`,
with tokens that reconstruct what the loop consumed, or by the `return` after
a recognizer met the end of the input. -/
theorem scanLoop_spec (n : Nat) :
    ∀ l : lexer, l.reader.unread.length < n →
      (∃ l1, scanLoop n l = Outcome.ret (LoopExit.atBreak l1) ∧
        (reconstruct l1.tokens).data = (reconstruct l.tokens).data ++ l.reader.unread) ∨
      (∃ l1, scanLoop n l = Outcome.ret (LoopExit.atReturn l1 Error.EOF)) := by
  induction n with
  | zero => intro l h; omega
  | succ n ih =>
    intro l h
    cases hu : l.reader.unread with
    | nil =>
      exact Or.inl ⟨{ l with tokRune := Char.ofNat 0, reader := ⟨[], none⟩ },
        scanLoop_nil n l hu, by simp⟩
    | cons c rest =>
      rw [hu] at h
      simp only [List.length_cons] at h
      obtain ⟨e, l1, h1, h2, h3⟩ :=
        runParsers_spec { l with tokRune := c, reader := ⟨rest, some c⟩,
                                 offset := l.offset + (c.utf8Size : Int) }
      rcases h2 with h2 | h2
      · subst h2
        obtain ⟨h4, h5⟩ := h3 rfl
        simp only at h4 h5
        rw [scanLoop_step n l l1 c rest hu h1]
        rcases ih l1 (by omega) with ⟨l2, h6, h7⟩ | ⟨l2, h6⟩
        · refine Or.inl ⟨l2, h6, ?_⟩
          rw [h7, h5]
        · exact Or.inr ⟨l2, h6⟩
      · subst h2
        exact Or.inr ⟨l1, scanLoop_abort n l l1 c rest Error.EOF hu h1⟩

theorem reconstruct_nil : reconstruct [] = "" := rfl

/-- The function `parseSimpleTokens` returns `io.EOF` on every input, with
tokens that reconstruct the input when the loop ended by its `break` and with
no token otherwise. -/
theorem parseSimpleTokens_spec (input : String) :
    (endsAtBreak input = true ∧
      ∃ ts, parseSimpleTokens input = Outcome.ret (ts, some Error.EOF) ∧
        reconstruct ts = input) ∨
    (endsAtBreak input = false ∧
      parseSimpleTokens input = Outcome.ret ([], some Error.EOF)) := by
  rcases scanLoop_spec (input.data.length + 1) (initLexer input) (Nat.lt_succ_self _) with
    ⟨l1, h1, h2⟩ | ⟨l1, h1⟩
  · refine Or.inl ⟨by simp only [endsAtBreak, h1], l1.tokens,
      by simp only [parseSimpleTokens, h1], ?_⟩
    apply String.ext
    rw [h2]
    simp [initLexer, NewReader, reconstruct_nil]
  · exact Or.inr ⟨by simp only [endsAtBreak, h1], by simp only [parseSimpleTokens, h1]⟩

theorem Token.text_reclassified (t : Token) :
    Token.text (if t.Typ = "IDENTIFER" then
        if isNumeric t.Literal then { t with Typ := "NUMBER" } else t
      else t) = t.text := by
  have hne : ¬ ("NUMBER" = "STRING") := by decide
  have hne2 : ¬ ("IDENTIFER" = "STRING") := by decide
  by_cases hT : t.Typ = "IDENTIFER"
  · by_cases hN : isNumeric t.Literal = true
    · simp [hT, hN, Token.text, hne, hne2]
    · simp [hT, hN]
  · simp [hT]

theorem reconstruct_parseIdentifer (ts : List Token) :
    reconstruct (parseIdentifer ts).1 = reconstruct ts := by
  rw [parseIdentifer_fst]
  induction ts using List.reverseRecOn with
  | nil => rfl
  | append_singleton ts t ih =>
    rw [List.map_append, List.map_singleton, reconstruct_append, reconstruct_append, ih,
      Token.text_reclassified]

/-- The function `Parse` returns a nil error on every input, with tokens that
reconstruct the input when the loop ended by its `break` and with no token
otherwise. -/
theorem Parse_spec (input : String) :
    (endsAtBreak input = true ∧
      ∃ ts, Parse input = Outcome.ret (ts, none) ∧ reconstruct ts = input) ∨
    (endsAtBreak input = false ∧ Parse input = Outcome.ret ([], none)) := by
  rcases parseSimpleTokens_spec input with ⟨h0, ts, h1, h2⟩ | ⟨h0, h1⟩
  · refine Or.inl ⟨h0, (parseIdentifer ts).1, ?_, ?_⟩
    · simp only [Parse, h1]
      simp [parseIdentifer]
    · rw [reconstruct_parseIdentifer, h2]
  · refine Or.inr ⟨h0, ?_⟩
    simp only [Parse, h1]
    simp [parseIdentifer]


/-! ## Strings -/

theorem escapedOnly_of_plain (s : List Char) :
    ∀ last : Char, last ≠ backslash → (∀ c ∈ s, c ≠ quote ∧ c ≠ backslash) →
      escapedOnly last s := by
  induction s with
  | nil => intro last h _; exact h
  | cons c s ih =>
    intro last _ hs
    have hc := hs c (List.mem_cons_self _ _)
    exact ⟨fun h => absurd h hc.1, ih c hc.2 (fun d hd => hs d (List.mem_cons_of_mem _ hd))⟩

/-- The loop of `stringTok` on a text whose quotes are all escaped, followed
by a double quote: the text becomes the value and the quote is consumed. -/
theorem stringLoop_closed (s rest : List Char) :
    ∀ (n : Nat) (l : lexer) (value : String) (lastRune : Char),
      l.reader.unread = s ++ quote :: rest → escapedOnly lastRune s → s.length < n →
      ∃ off : Int, stringLoop n l value lastRune =
        Outcome.ret ({ l with tokRune := quote, offset := off, reader := ⟨rest, some quote⟩ },
          ⟨value.data ++ s⟩, none) := by
  induction s with
  | nil =>
    intro n l value lastRune hu he hn
    obtain ⟨m, rfl⟩ : ∃ m, n = m + 1 := ⟨n - 1, by simp at hn; omega⟩
    simp only [List.nil_append] at hu
    refine ⟨l.offset + (quote.utf8Size : Int), ?_⟩
    have he1 : lastRune ≠ backslash := he
    simp [stringLoop, ReadRune_cons _ quote rest hu, he1]
  | cons c s ih =>
    intro n l value lastRune hu he hn
    obtain ⟨m, rfl⟩ : ∃ m, n = m + 1 := ⟨n - 1, by simp at hn; omega⟩
    simp only [List.cons_append] at hu
    obtain ⟨he1, he2⟩ := he
    have hq : ¬ (lastRune ≠ backslash ∧ c = quote) := fun h => h.1 (he1 h.2)
    obtain ⟨off, h1⟩ := ih m
      { l with tokRune := c, reader := ⟨s ++ quote :: rest, some c⟩,
               offset := l.offset + (c.utf8Size : Int) }
      (value.push c) c rfl he2 (by simp at hn; omega)
    refine ⟨off, ?_⟩
    unfold stringLoop
    simp only [ReadRune_cons _ c _ hu, hq, if_false, h1]
    simp

/-- One dispatch on a double quote that opens a closed string. -/
theorem runParsers_string (l : lexer) (s rest : List Char) (h : l.tokRune = quote)
    (hu : l.reader.unread = s ++ quote :: rest) (he : escapedOnly (Char.ofNat 0) s) :
    ∃ off : Int, runParsers tokenParsers l =
      Outcome.ret (none,
        { l with tokRune := quote, offset := off, reader := ⟨rest, some quote⟩,
                 tokens := l.tokens ++
                   [⟨"STRING", ⟨s⟩, l.currentLine, l.currentColumn, off⟩] }) := by
  obtain ⟨off, h1⟩ := stringLoop_closed s rest (l.reader.unread.length + 1) l ""
    (Char.ofNat 0) hu he (by rw [hu]; simp; omega)
  refine ⟨off, ?_⟩
  unfold tokenParsers
  rw [runParsers_miss _ _ _ _ (separatorTok_miss l (by rw [h]; decide)),
    runParsers_miss _ _ _ _ (singleLineCommentTok_miss l (by rw [h]; decide)),
    runParsers_miss _ _ _ _ (multipleLineCommentTok_miss l (by rw [h]; decide)),
    runParsers_miss _ _ _ _ (listBeginTok_miss l (by rw [h]; decide)),
    runParsers_miss _ _ _ _ (listEndTok_miss l (by rw [h]; decide))]
  apply runParsers_hit _ _ _ _ true _ _ (fun _ => rfl)
  simp [stringTok, h, h1, lexer.appendTok]


theorem parseIdentifer_strings (a b : String) (o1 o2 : Int) :
    parseIdentifer [⟨"STRING", a, 0, 0, o1⟩, ⟨"STRING", b, 0, 0, o2⟩] =
      ([⟨"STRING", a, 0, 0, o1⟩, ⟨"STRING", b, 0, 0, o2⟩], none) := by
  have hne : ¬ ("STRING" = "IDENTIFER") := by decide
  simp [parseIdentifer, hne]

/-- C7: for all texts `a` and `b` with neither a double quote nor a backslash,
`Parse` on the two quoted strings `"a""b"` with nothing between them returns
exactly two tokens, `STRING` with literal `a` then `STRING` with literal `b`,
and no `SEPARATOR` token. -/
theorem Parse_adjacent_strings (a b : String)
    (ha : ∀ c ∈ a.data, c ≠ quote ∧ c ≠ backslash)
    (hb : ∀ c ∈ b.data, c ≠ quote ∧ c ≠ backslash) :
    ∃ o1 o2 : Int,
      Parse (String.singleton quote ++ a ++ String.singleton quote ++
          (String.singleton quote ++ b ++ String.singleton quote)) =
        Outcome.ret ([⟨"STRING", a, 0, 0, o1⟩, ⟨"STRING", b, 0, 0, o2⟩], none) := by
  have h0 : (Char.ofNat 0) ≠ backslash := by decide
  have hin : (String.singleton quote ++ a ++ String.singleton quote ++
      (String.singleton quote ++ b ++ String.singleton quote)).data =
      quote :: (a.data ++ quote :: (quote :: (b.data ++ quote :: []))) := by simp
  obtain ⟨m, hm⟩ : ∃ m, (String.singleton quote ++ a ++ String.singleton quote ++
      (String.singleton quote ++ b ++ String.singleton quote)).data.length + 1 = m + 3 :=
    ⟨a.data.length + b.data.length + 2, by rw [hin]; simp; omega⟩
  obtain ⟨o1, h1⟩ := runParsers_string
    { initLexer (String.singleton quote ++ a ++ String.singleton quote ++
          (String.singleton quote ++ b ++ String.singleton quote)) with
      tokRune := quote
      reader := ⟨a.data ++ quote :: (quote :: (b.data ++ quote :: [])), some quote⟩
      offset := 0 + (quote.utf8Size : Int) }
    a.data (quote :: (b.data ++ quote :: [])) rfl rfl (escapedOnly_of_plain _ _ h0 ha)
  obtain ⟨o2, h2⟩ := runParsers_string
    { tokRune := quote, tokens := [⟨"STRING", a, 0, 0, o1⟩], currentLine := 0,
      currentColumn := 0, offset := o1 + (quote.utf8Size : Int),
      reader := ⟨b.data ++ quote :: [], some quote⟩ }
    b.data [] rfl rfl (escapedOnly_of_plain _ _ h0 hb)
  refine ⟨o1, o2, ?_⟩
  unfold Parse parseSimpleTokens
  rw [hm, scanLoop_step (m + 2) _ _ quote _ (by simp [initLexer, NewReader]) h1,
    scanLoop_step (m + 1) _ _ quote _ rfl h2, scanLoop_nil m _ rfl]
  simp [initLexer, parseIdentifer_strings]

/-- Witness of `Parse_adjacent_strings`: the texts `c` and `d` of the test
input. -/
theorem Parse_adjacent_strings_witness :
    ∃ o1 o2 : Int,
      Parse (String.singleton quote ++ "c" ++ String.singleton quote ++
          (String.singleton quote ++ "d" ++ String.singleton quote)) =
        Outcome.ret ([⟨"STRING", "c", 0, 0, o1⟩, ⟨"STRING", "d", 0, 0, o2⟩], none) :=
  Parse_adjacent_strings "c" "d" (by decide) (by decide)


/-! ## Multi-line comments -/

theorem noCloser_cons (c : Char) (s : List Char) :
    noCloser (c :: s) ↔ (s.head? = some hash → c ≠ bar) ∧ noCloser s := by
  cases s with
  | nil => simp [noCloser]
  | cons d s => simp only [noCloser, List.head?_cons, Option.some.injEq]; tauto

theorem noCloser_append_bar (s : List Char) (h : noCloser s) : noCloser (s ++ [bar]) := by
  have hbh : bar ≠ hash := by decide
  induction s with
  | nil => simp [noCloser]
  | cons c s ih =>
    rw [noCloser_cons] at h
    rw [List.cons_append, noCloser_cons]
    refine ⟨?_, ih h.2⟩
    cases s with
    | nil => intro hh; simp at hh; exact absurd hh hbh
    | cons d s => simpa using h.1

theorem noCloser_of_absent (s : List Char) (h : ¬ [bar, hash] <:+: s) : noCloser s := by
  induction s with
  | nil => simp [noCloser]
  | cons c s ih =>
    rw [noCloser_cons]
    refine ⟨?_, ih (fun hi => h (hi.trans (List.suffix_cons c s).isInfix))⟩
    intro hh hc
    cases s with
    | nil => simp at hh
    | cons d s =>
      simp only [List.head?_cons, Option.some.injEq] at hh
      subst hh hc
      exact h (List.prefix_append [bar, hash] s).isInfix

/-- The loop of `multipleLineCommentTok` on a text `w` followed by the closer:
when no `|#` occurs in `w` followed by `|`, the loop stops at that closer. -/
theorem multipleLineCommentLoop_closed (w rest : List Char) :
    ∀ (n : Nat) (l : lexer) (value : String) (ok : Bool),
      l.reader.unread = w ++ bar :: hash :: rest → noCloser (w ++ [bar]) → w.length < n →
      ∃ off : Int, multipleLineCommentLoop n l value ok =
        Outcome.ret (some ⟨value.data ++ (w ++ [bar, hash])⟩, true, none,
          { l with tokRune := bar, offset := off, reader := ⟨rest, some hash⟩ }) := by
  induction w with
  | nil =>
    intro n l value ok hu _ hn
    obtain ⟨m, rfl⟩ : ∃ m, n = m + 1 := ⟨n - 1, by simp at hn; omega⟩
    simp only [List.nil_append] at hu
    refine ⟨l.offset + (bar.utf8Size : Int), ?_⟩
    unfold multipleLineCommentLoop
    simp only [ReadRune_cons _ bar _ hu]
    rw [ifRunePattern_cons _ bar hash hash rest rfl rfl]
    simp [RuneScanner.ReadRune]
    apply String.ext
    simp; rfl
  | cons c w ih =>
    intro n l value ok hu hw hn
    obtain ⟨m, rfl⟩ : ∃ m, n = m + 1 := ⟨n - 1, by simp at hn; omega⟩
    simp only [List.cons_append] at hu hw
    rw [noCloser_cons] at hw
    have hlen : w.length < m := by simp at hn; omega
    unfold multipleLineCommentLoop
    simp only [ReadRune_cons _ c _ hu]
    by_cases hc : c = bar
    · obtain ⟨d, t, hd⟩ : ∃ d t, w ++ bar :: hash :: rest = d :: t := by
        cases w with
        | nil => exact ⟨_, _, rfl⟩
        | cons d w => exact ⟨_, _, rfl⟩
      have hdh : d ≠ hash := by
        intro hdh
        apply hw.1 _ hc
        cases w with
        | nil => simp at hd ⊢; exact hd.1.trans hdh
        | cons e w => simp at hd ⊢; exact hd.1.trans hdh
      rw [hd, ifRunePattern_cons _ bar hash d t hc rfl]
      obtain ⟨off, h1⟩ := ih m
        { l with tokRune := c, reader := ⟨d :: t, none⟩,
                 offset := l.offset + (c.utf8Size : Int) }
        (value.push c) (d == hash) hd.symm hw.2 hlen
      refine ⟨off, ?_⟩
      simp [hdh, h1]
    · rw [ifRunePattern_ne _ bar hash hc]
      obtain ⟨off, h1⟩ := ih m
        { l with tokRune := c, reader := ⟨w ++ bar :: hash :: rest, some c⟩,
                 offset := l.offset + (c.utf8Size : Int) }
        (value.push c) false rfl hw.2 hlen
      refine ⟨off, ?_⟩
      simp [h1]


/-- One dispatch on a `#` that opens a closed comment. -/
theorem runParsers_comment (l : lexer) (body rest : List Char) (h : l.tokRune = hash)
    (hu : l.reader.unread = bar :: (body ++ bar :: hash :: rest))
    (hb : noCloser (bar :: (body ++ [bar]))) :
    ∃ off : Int, runParsers tokenParsers l =
      Outcome.ret (none,
        { l with tokRune := bar, offset := off, reader := ⟨rest, some hash⟩,
                 tokens := l.tokens ++
                   [⟨"MULTIPLE-LINE-COMMENT", ⟨hash :: bar :: (body ++ [bar, hash])⟩,
                     l.currentLine, l.currentColumn, off⟩] }) := by
  obtain ⟨off, h1⟩ := multipleLineCommentLoop_closed (bar :: body) rest
    ((bar :: (body ++ bar :: hash :: rest)).length + 1)
    { l with reader := ⟨bar :: (body ++ bar :: hash :: rest), none⟩ } "#" true rfl hb
    (by simp; omega)
  refine ⟨off, ?_⟩
  unfold tokenParsers
  rw [runParsers_miss _ _ _ _ (separatorTok_miss l (by rw [h]; decide)),
    runParsers_miss _ _ _ _ (singleLineCommentTok_miss l (by rw [h]; decide))]
  apply runParsers_hit _ _ _ _ true _ _ (fun _ => rfl)
  unfold multipleLineCommentTok
  rw [ifRunePattern_cons _ hash bar bar _ h hu]
  simp only [beq_self_eq_true, Bool.not_true, ne_eq, not_true_eq_false, decide_False,
    Bool.or_self, Bool.false_eq_true, if_false]
  rw [h1]
  rfl

theorem parseIdentifer_comment (v : String) (off : Int) :
    parseIdentifer [⟨"MULTIPLE-LINE-COMMENT", v, 0, 0, off⟩] =
      ([⟨"MULTIPLE-LINE-COMMENT", v, 0, 0, off⟩], none) := by
  have hne : ¬ ("MULTIPLE-LINE-COMMENT" = "IDENTIFER") := by decide
  simp [parseIdentifer, hne]

/-- C5, as amended: for every body text that does not contain the sequence
`|#` and does not begin with `#`, `Parse` on `#|` body `|#` returns exactly
one token, of type `MULTIPLE-LINE-COMMENT`, whose literal is the whole input. -/
theorem Parse_multipleLineComment (body : String)
    (h1 : ¬ [bar, hash] <:+: body.data) (h2 : body.data.head? ≠ some hash) :
    ∃ off : Int, Parse ("#|" ++ body ++ "|#") =
      Outcome.ret ([⟨"MULTIPLE-LINE-COMMENT", "#|" ++ body ++ "|#", 0, 0, off⟩], none) := by
  have hbh : bar ≠ hash := by decide
  have hin : ("#|" ++ body ++ "|#").data = hash :: bar :: (body.data ++ bar :: hash :: []) := by
    simp only [String.data_append]; rfl
  have hb : noCloser (bar :: (body.data ++ [bar])) := by
    rw [noCloser_cons]
    refine ⟨fun hh _ => ?_, noCloser_append_bar _ (noCloser_of_absent _ h1)⟩
    cases hd : body.data with
    | nil => rw [hd] at hh; simp at hh; exact hbh hh
    | cons d t => rw [hd] at hh h2; simp at hh h2; exact h2 hh
  obtain ⟨m, hm⟩ : ∃ m, ("#|" ++ body ++ "|#").data.length + 1 = m + 2 :=
    ⟨body.data.length + 3, by rw [hin]; simp⟩
  obtain ⟨off, h3⟩ := runParsers_comment
    { initLexer ("#|" ++ body ++ "|#") with
      tokRune := hash
      reader := ⟨bar :: (body.data ++ bar :: hash :: []), some hash⟩
      offset := 0 + (hash.utf8Size : Int) }
    body.data [] rfl rfl hb
  refine ⟨off, ?_⟩
  have hlit : (⟨hash :: bar :: (body.data ++ [bar, hash])⟩ : String) = "#|" ++ body ++ "|#" :=
    String.ext hin.symm
  unfold Parse parseSimpleTokens
  rw [hm, scanLoop_step (m + 1) _ _ hash _ (by simp only [initLexer, NewReader, hin]) h3,
    scanLoop_nil m _ rfl]
  simp [initLexer, parseIdentifer_comment, hlit]

/-- Witness of `Parse_multipleLineComment`: the input `#|c|#`. -/
theorem Parse_multipleLineComment_witness :
    ∃ off : Int, Parse ("#|" ++ "c" ++ "|#") =
      Outcome.ret ([⟨"MULTIPLE-LINE-COMMENT", "#|" ++ "c" ++ "|#", 0, 0, off⟩], none) :=
  Parse_multipleLineComment "c" (by decide) (by decide)

/-- C5 fails as stated: the body `##|x` does not contain the sequence `|#`,
yet `Parse` on `#|##|x|#` returns two tokens, the comments `#|#` and `#|x|#`:
the `|` of the opener and the first `#` of the body close the first one. -/
theorem Parse_multipleLineComment_body_hash :
    ¬ [bar, hash] <:+: ("##|x" : String).data ∧
    Parse ("#|" ++ "##|x" ++ "|#") =
      Outcome.ret ([⟨"MULTIPLE-LINE-COMMENT", "#|#", 0, 0, 2⟩,
                    ⟨"MULTIPLE-LINE-COMMENT", "#|x|#", 0, 0, 6⟩], none) := by
  decide

/-! ## Every input -/

/-- C2: for every input read from an in-memory text, `Parse` returns (it
neither panics nor exhausts a loop bound) with a nil error, whether the end of
the input is met by the scan loop or inside a recognizer. -/
theorem Parse_nil_error (input : String) :
    ∃ ts, Parse input = Outcome.ret (ts, none) := by
  rcases Parse_spec input with ⟨_, ts, h, _⟩ | ⟨_, h⟩
  · exact ⟨ts, h⟩
  · exact ⟨[], h⟩

/-- C1, as amended: for every input text on which the scan loop itself meets
the end of the input (no recognizer does), `Parse` returns a token sequence
whose literals, concatenated in order with each `STRING` literal wrapped in
double quotes again, equal the input. -/
theorem Parse_round_trip (input : String) (h : endsAtBreak input = true) :
    ∃ ts, Parse input = Outcome.ret (ts, none) ∧ reconstruct ts = input := by
  rcases Parse_spec input with ⟨_, ts, h1, h2⟩ | ⟨h0, _⟩
  · exact ⟨ts, h1, h2⟩
  · rw [h] at h0
    exact absurd h0 (by decide)

/-- Witness of `Parse_round_trip`: a list with an escaped string, a comment
line and a multi-line comment. -/
theorem Parse_round_trip_witness :
    endsAtBreak "(f \"a\\\"b\") ; c\n#|x|#" = true ∧
    ∃ ts, Parse "(f \"a\\\"b\") ; c\n#|x|#" = Outcome.ret (ts, none) ∧
      reconstruct ts = "(f \"a\\\"b\") ; c\n#|x|#" :=
  ⟨by decide, Parse_round_trip "(f \"a\\\"b\") ; c\n#|x|#" (by decide)⟩

/-- C1 fails as stated: on the unterminated comment `#|abc` the recognizer
returns the end-of-input error, `Parse` returns no token and a nil error, and
the empty reconstruction differs from the input. -/
theorem Parse_round_trip_unterminated_comment :
    Parse "#|abc" = Outcome.ret ([], none) ∧ reconstruct [] ≠ "#|abc" := by
  decide


/-! ## Recognizers that meet the end of the input -/

/-- The loop of `stringTok` on a text without a double quote reads all of it
and stops on `io.EOF`. -/
theorem stringLoop_eof (s : List Char) :
    ∀ (n : Nat) (l : lexer) (value : String) (lastRune : Char),
      l.reader.unread = s → (∀ c ∈ s, c ≠ quote) → s.length < n →
      ∃ off : Int, stringLoop n l value lastRune =
        Outcome.ret ({ l with tokRune := Char.ofNat 0, offset := off, reader := ⟨[], none⟩ },
          ⟨value.data ++ s⟩, some Error.EOF) := by
  induction s with
  | nil =>
    intro n l value lastRune hu _ hn
    obtain ⟨m, rfl⟩ : ∃ m, n = m + 1 := ⟨n - 1, by simp at hn; omega⟩
    refine ⟨l.offset, ?_⟩
    unfold stringLoop
    simp [ReadRune_nil _ hu]
  | cons c s ih =>
    intro n l value lastRune hu hs hn
    obtain ⟨m, rfl⟩ : ∃ m, n = m + 1 := ⟨n - 1, by simp at hn; omega⟩
    have hq : ¬ (lastRune ≠ backslash ∧ c = quote) :=
      fun h => hs c (List.mem_cons_self _ _) h.2
    obtain ⟨off, h1⟩ := ih m
      { l with tokRune := c, reader := ⟨s, some c⟩, offset := l.offset + (c.utf8Size : Int) }
      (value.push c) c rfl (fun d hd => hs d (List.mem_cons_of_mem _ hd))
      (by simp at hn; omega)
    refine ⟨off, ?_⟩
    unfold stringLoop
    simp only [ReadRune_cons _ c _ hu, hq, if_false, h1]
    simp

/-- C3 on the code: on every input made of a double quote followed by a text
without a double quote, `stringTok` appends its `STRING` token and returns
`io.EOF`, the scan loop returns with its result `tokens` still nil, and
`Parse` returns no token and a nil error (where C3 states one `STRING`
token). -/
theorem Parse_unterminated_string (s : String) (hs : ∀ c ∈ s.data, c ≠ quote) :
    Parse (String.singleton quote ++ s) = Outcome.ret ([], none) := by
  have key : ∀ l : lexer, l.tokRune = quote → l.reader.unread = s.data →
      ∃ l1, runParsers tokenParsers l = Outcome.ret (some Error.EOF, l1) := by
    intro l h hu
    obtain ⟨off, h1⟩ := stringLoop_eof s.data (l.reader.unread.length + 1) l ""
      (Char.ofNat 0) hu hs (by rw [hu]; exact Nat.lt_succ_self _)
    refine ⟨lexer.appendTok
      { l with tokRune := Char.ofNat 0, offset := off, reader := ⟨[], none⟩ }
      ⟨"".data ++ s.data⟩ "STRING", ?_⟩
    unfold tokenParsers
    rw [runParsers_miss _ _ _ _ (separatorTok_miss l (by rw [h]; decide)),
      runParsers_miss _ _ _ _ (singleLineCommentTok_miss l (by rw [h]; decide)),
      runParsers_miss _ _ _ _ (multipleLineCommentTok_miss l (by rw [h]; decide)),
      runParsers_miss _ _ _ _ (listBeginTok_miss l (by rw [h]; decide)),
      runParsers_miss _ _ _ _ (listEndTok_miss l (by rw [h]; decide))]
    apply runParsers_hit _ _ _ _ true _ _ (fun he => by simp at he)
    unfold stringTok
    rw [if_pos h, h1]
  obtain ⟨l1, h2⟩ := key
    { initLexer (String.singleton quote ++ s) with
      tokRune := quote
      reader := ⟨s.data, some quote⟩
      offset := 0 + (quote.utf8Size : Int) } rfl rfl
  unfold Parse parseSimpleTokens
  have hlen : (String.singleton quote ++ s).data.length + 1 = (s.data.length + 1) + 1 := by simp
  rw [hlen, scanLoop_abort (s.data.length + 1) _ _ quote s.data Error.EOF
    (by simp [initLexer, NewReader]) h2]
  simp [parseIdentifer]

/-- The recognizer `identiferTok` on the last two runes of the input. -/
theorem identiferTok_two (l : lexer) (c : Char) (h : isIdentiferSeparator l.tokRune = false)
    (hu : l.reader.unread = [c]) (hc : isIdentiferSeparator c = false) :
    ∃ l1, identiferTok l = Outcome.ret (true, some Error.EOF, l1) := by
  obtain ⟨tr, toks, cl, cc, off, ⟨u, last⟩⟩ := l
  simp only at h hu
  subst hu
  refine ⟨lexer.appendTok
    { tokRune := Char.ofNat 0, tokens := toks, currentLine := cl, currentColumn := cc,
      offset := off + (c.utf8Size : Int), reader := ⟨[], none⟩ }
    (("".push tr).push c) "IDENTIFER", ?_⟩
  unfold identiferTok
  simp only [List.length_cons, List.length_nil, Nat.zero_add, Nat.reduceAdd]
  unfold identiferLoop
  simp only [h, hc, RuneScanner.ReadRune, Bool.false_eq_true, if_false]
  unfold identiferLoop
  simp only [hc, RuneScanner.ReadRune, Bool.false_eq_true, if_false, if_true]

/-- C4 on the code: on every input made of `#` and a rune that is neither `|`
nor an identifier separator, the `#` falls through to `identiferTok`, which
appends its `IDENTIFER` token and returns `io.EOF`; the scan loop returns with
its result `tokens` still nil, and `Parse` returns no token and a nil error
(where C4 states one `IDENTIFER` token). -/
theorem Parse_hash_rune (c : Char) (hc : c ≠ bar)
    (hsep : isIdentiferSeparator c = false) :
    Parse (String.mk [hash, c]) = Outcome.ret ([], none) := by
  have hb : (c == bar) = false := by simpa using hc
  have key : ∀ l : lexer, l.tokRune = hash → l.reader.unread = [c] →
      ∃ l1, runParsers tokenParsers l = Outcome.ret (some Error.EOF, l1) := by
    intro l h hu
    have h1 : multipleLineCommentTok l =
        Outcome.ret (false, none, { l with reader := ⟨[c], none⟩ }) := by
      unfold multipleLineCommentTok
      rw [ifRunePattern_cons _ hash bar c [] h hu]
      simp [hb]
    obtain ⟨l1, h2⟩ := identiferTok_two { l with reader := ⟨[c], none⟩ } c
      (by show isIdentiferSeparator l.tokRune = false; rw [h]; decide) rfl hsep
    refine ⟨l1, ?_⟩
    unfold tokenParsers
    rw [runParsers_miss _ _ _ _ (separatorTok_miss l (by rw [h]; decide)),
      runParsers_miss _ _ _ _ (singleLineCommentTok_miss l (by rw [h]; decide)),
      runParsers_miss _ _ _ _ h1,
      runParsers_miss _ _ _ _ (listBeginTok_miss _ (by show l.tokRune ≠ lparen; rw [h]; decide)),
      runParsers_miss _ _ _ _ (listEndTok_miss _ (by show l.tokRune ≠ rparen; rw [h]; decide)),
      runParsers_miss _ _ _ _ (stringTok_miss _ (by show l.tokRune ≠ quote; rw [h]; decide))]
    exact runParsers_hit _ _ _ _ true _ h2 (fun he => by simp at he)
  obtain ⟨l1, h3⟩ := key
    { initLexer (String.mk [hash, c]) with
      tokRune := hash
      reader := ⟨[c], some hash⟩
      offset := 0 + (hash.utf8Size : Int) } rfl rfl
  unfold Parse parseSimpleTokens
  rw [show (String.mk [hash, c]).data.length + 1 = 2 + 1 from rfl,
    scanLoop_abort 2 _ _ hash [c] Error.EOF rfl h3]
  simp [parseIdentifer]

/-- Witness of `Parse_unterminated_string` at the input made of a double quote
and `abc`, with the lexer at the `return` of the scan loop: it holds the token
`STRING abc` that the result does not. -/
theorem Parse_unterminated_string_witness :
    Parse (String.singleton quote ++ "abc") = Outcome.ret ([], none) ∧
    parseSimpleTokens (String.singleton quote ++ "abc") = Outcome.ret ([], some Error.EOF) ∧
    scanLoop 5 (initLexer (String.singleton quote ++ "abc")) =
      Outcome.ret (LoopExit.atReturn
        { tokRune := Char.ofNat 0, tokens := [⟨"STRING", "abc", 0, 0, 4⟩], currentLine := 0,
          currentColumn := 0, offset := 4, reader := ⟨[], none⟩ } Error.EOF) :=
  ⟨Parse_unterminated_string "abc" (by decide), by decide, by decide⟩

/-- Witness of `Parse_hash_rune` at the input `#x`, with the lexer at the
`return` of the scan loop: it holds the token `IDENTIFER #x` that the result
does not. -/
theorem Parse_hash_rune_witness :
    Parse (String.mk [hash, Char.ofNat 120]) = Outcome.ret ([], none) ∧
    String.mk [hash, Char.ofNat 120] = "#x" ∧
    parseSimpleTokens "#x" = Outcome.ret ([], some Error.EOF) ∧
    scanLoop 3 (initLexer "#x") =
      Outcome.ret (LoopExit.atReturn
        { tokRune := Char.ofNat 0, tokens := [⟨"IDENTIFER", "#x", 0, 0, 2⟩], currentLine := 0,
          currentColumn := 0, offset := 2, reader := ⟨[], none⟩ } Error.EOF) :=
  ⟨Parse_hash_rune (Char.ofNat 120) (by decide) (by decide), by decide, by decide, by decide⟩


/-! ## The result as a whole -/

/-- C19: for every input (a text of valid code points) the token sequence
`Parse` returns is either empty or reconstructs the whole input; it is never a
non-empty sequence that covers only part of the input. -/
theorem Parse_all_or_nothing (input : String) :
    ∃ ts, Parse input = Outcome.ret (ts, none) ∧ (ts = [] ∨ reconstruct ts = input) := by
  rcases Parse_spec input with ⟨_, ts, h1, h2⟩ | ⟨_, h1⟩
  · exact ⟨ts, h1, Or.inr h2⟩
  · exact ⟨[], h1, Or.inl rfl⟩

/-- One dispatch gives the same result whatever the eighth function of the
list is: one of the first seven reports a match or an error first. -/
theorem runParsers_fallback (l : lexer) :
    ∃ e l1, ∀ g : tokenFunction,
      runParsers [separatorTok, singleLineCommentTok, multipleLineCommentTok, listBeginTok,
        listEndTok, stringTok, identiferTok, g] l = Outcome.ret (e, l1) := by
  cases hw : isWhitespace l.tokRune with
  | true =>
    obtain ⟨l1, h1, _⟩ := separatorTok_hit l hw
    exact ⟨none, l1, fun g => runParsers_hit _ _ _ _ _ _ h1 (fun _ => rfl)⟩
  | false =>
    by_cases hs : l.tokRune = semicolon
    · obtain ⟨e, l1, h1, _, _⟩ := singleLineCommentTok_hit l hs
      exact ⟨e, l1, fun g => by
        rw [runParsers_miss _ _ _ _ (separatorTok_miss l hw)]
        exact runParsers_hit _ _ _ _ _ _ h1 (fun _ => rfl)⟩
    have tail : ∀ l0 : lexer, l0.tokRune = l.tokRune →
        ∃ e l1, ∀ g : tokenFunction,
          runParsers [listBeginTok, listEndTok, stringTok, identiferTok, g] l0
            = Outcome.ret (e, l1) := by
      intro l0 e1
      by_cases hlp : l0.tokRune = lparen
      · obtain ⟨l1, h1, _⟩ := listBeginTok_hit l0 hlp
        exact ⟨none, l1, fun g => runParsers_hit _ _ _ _ _ _ h1 (fun _ => rfl)⟩
      by_cases hrp : l0.tokRune = rparen
      · obtain ⟨l1, h1, _⟩ := listEndTok_hit l0 hrp
        exact ⟨none, l1, fun g => by
          rw [runParsers_miss _ _ _ _ (listBeginTok_miss l0 hlp)]
          exact runParsers_hit _ _ _ _ _ _ h1 (fun _ => rfl)⟩
      by_cases hq : l0.tokRune = quote
      · obtain ⟨e, l1, h1, _, _⟩ := stringTok_hit l0 hq
        exact ⟨e, l1, fun g => by
          rw [runParsers_miss _ _ _ _ (listBeginTok_miss l0 hlp),
            runParsers_miss _ _ _ _ (listEndTok_miss l0 hrp)]
          exact runParsers_hit _ _ _ _ _ _ h1 (fun _ => rfl)⟩
      have hsep : isIdentiferSeparator l0.tokRune = false := by
        rw [e1] at hlp hrp ⊢
        simp only [isWhitespace, Bool.or_eq_false_iff, beq_eq_false_iff_ne, ne_eq] at hw
        simp only [isIdentiferSeparator, Bool.or_eq_false_iff, beq_eq_false_iff_ne, ne_eq]
        tauto
      obtain ⟨e, l1, h1, _, _⟩ := identiferTok_hit l0 hsep
      exact ⟨e, l1, fun g => by
        rw [runParsers_miss _ _ _ _ (listBeginTok_miss l0 hlp),
          runParsers_miss _ _ _ _ (listEndTok_miss l0 hrp),
          runParsers_miss _ _ _ _ (stringTok_miss l0 hq)]
        exact runParsers_hit _ _ _ _ _ _ h1 (fun _ => rfl)⟩
    by_cases hh : l.tokRune = hash
    · rcases multipleLineCommentTok_hash l hh with ⟨ok, l1, h1⟩ | ⟨l1, h1, _⟩ | ⟨l1, h1, h2, _, _⟩
      · exact ⟨_, l1, fun g => by
          rw [runParsers_miss _ _ _ _ (separatorTok_miss l hw),
            runParsers_miss _ _ _ _ (singleLineCommentTok_miss l hs)]
          exact runParsers_hit _ _ _ _ _ _ h1 (fun he => by simp at he)⟩
      · exact ⟨none, l1, fun g => by
          rw [runParsers_miss _ _ _ _ (separatorTok_miss l hw),
            runParsers_miss _ _ _ _ (singleLineCommentTok_miss l hs)]
          exact runParsers_hit _ _ _ _ _ _ h1 (fun _ => rfl)⟩
      · obtain ⟨e, l2, h3⟩ := tail l1 h2
        exact ⟨e, l2, fun g => by
          rw [runParsers_miss _ _ _ _ (separatorTok_miss l hw),
            runParsers_miss _ _ _ _ (singleLineCommentTok_miss l hs),
            runParsers_miss _ _ _ _ h1]
          exact h3 g⟩
    · obtain ⟨e, l2, h3⟩ := tail l rfl
      exact ⟨e, l2, fun g => by
        rw [runParsers_miss _ _ _ _ (separatorTok_miss l hw),
          runParsers_miss _ _ _ _ (singleLineCommentTok_miss l hs),
          runParsers_miss _ _ _ _ (multipleLineCommentTok_miss l hh)]
        exact h3 g⟩

/-- C20: in every lexer state the scan loop can dispatch, one of the seven
recognizers `separatorTok`, `singleLineCommentTok`, `multipleLineCommentTok`,
`listBeginTok`, `listEndTok`, `stringTok`, `identiferTok` reports a match or
returns an error before the eighth entry is tried (the dispatch returns the
same result whatever the eighth entry is, `notImplemented` included), and
`Parse` panics on no input. -/
theorem notImplemented_unreachable (input : String) (l : lexer) :
    (∃ e l1, runParsers tokenParsers l = Outcome.ret (e, l1) ∧
      ∀ g : tokenFunction,
        runParsers [separatorTok, singleLineCommentTok, multipleLineCommentTok, listBeginTok,
          listEndTok, stringTok, identiferTok, g] l = Outcome.ret (e, l1)) ∧
    ∀ r, Parse input ≠ Outcome.panic r := by
  refine ⟨?_, fun r h => ?_⟩
  · obtain ⟨e, l1, h1⟩ := runParsers_fallback l
    exact ⟨e, l1, h1 notImplemented, h1⟩
  · rcases Parse_spec input with ⟨_, ts, h1, _⟩ | ⟨_, h1⟩ <;> rw [h1] at h <;> cases h


/-! ## Single-line comments -/

/-- The loop of `singleLineCommentTok` on a text without a newline reads all of
it and stops on `io.EOF`. -/
theorem singleLineCommentLoop_eof (s : List Char) :
    ∀ (n : Nat) (l : lexer) (value : String),
      l.tokRune ≠ newline → l.reader.unread = s → (∀ c ∈ s, c ≠ newline) → s.length < n →
      ∃ off : Int, singleLineCommentLoop n l value =
        Outcome.ret ({ l with tokRune := Char.ofNat 0, offset := off, reader := ⟨[], none⟩ },
          ⟨value.data ++ s⟩, some Error.EOF) := by
  induction s with
  | nil =>
    intro n l value ht hu _ hn
    obtain ⟨m, rfl⟩ : ∃ m, n = m + 1 := ⟨n - 1, by simp at hn; omega⟩
    refine ⟨l.offset, ?_⟩
    unfold singleLineCommentLoop
    simp [ht, ReadRune_nil _ hu]
  | cons c s ih =>
    intro n l value ht hu hs hn
    obtain ⟨m, rfl⟩ : ∃ m, n = m + 1 := ⟨n - 1, by simp at hn; omega⟩
    obtain ⟨off, h1⟩ := ih m
      { l with tokRune := c, reader := ⟨s, some c⟩, offset := l.offset + (c.utf8Size : Int) }
      (value.push c) (hs c (List.mem_cons_self _ _)) rfl
      (fun d hd => hs d (List.mem_cons_of_mem _ hd)) (by simp at hn; omega)
    refine ⟨off, ?_⟩
    unfold singleLineCommentLoop
    simp only [ne_eq, ht, not_false_eq_true, if_true, ReadRune_cons _ c _ hu, h1]
    simp

/-- C12 on the code: on every input made of `;` followed by a text without a
newline, `singleLineCommentTok` appends its `SINGLE-LINE-COMMENT` token and
returns `io.EOF`, the scan loop returns with its result `tokens` still nil,
and `Parse` returns no token and a nil error (where C12 states one
`SINGLE-LINE-COMMENT` token). -/
theorem Parse_comment_at_end (s : String) (hs : ∀ c ∈ s.data, c ≠ newline) :
    Parse (";" ++ s) = Outcome.ret ([], none) := by
  have key : ∀ l : lexer, l.tokRune = semicolon → l.reader.unread = s.data →
      ∃ l1, runParsers tokenParsers l = Outcome.ret (some Error.EOF, l1) := by
    intro l h hu
    obtain ⟨off, h1⟩ := singleLineCommentLoop_eof s.data (l.reader.unread.length + 1) l ";"
      (by rw [h]; decide) hu hs (by rw [hu]; exact Nat.lt_succ_self _)
    refine ⟨lexer.appendTok
      { l with tokRune := Char.ofNat 0, offset := off, reader := ⟨[], none⟩ }
      ⟨";".data ++ s.data⟩ "SINGLE-LINE-COMMENT", ?_⟩
    unfold tokenParsers
    rw [runParsers_miss _ _ _ _ (separatorTok_miss l (by rw [h]; decide))]
    apply runParsers_hit _ _ _ _ true _ _ (fun he => by simp at he)
    unfold singleLineCommentTok
    rw [if_pos h, h1]
  obtain ⟨l1, h2⟩ := key
    { initLexer (";" ++ s) with
      tokRune := semicolon
      reader := ⟨s.data, some semicolon⟩
      offset := 0 + (semicolon.utf8Size : Int) } rfl rfl
  unfold Parse parseSimpleTokens
  have hlen : (";" ++ s).data.length + 1 = (s.data.length + 1) + 1 := by
    have h1 : (";" : String).data.length = 1 := rfl
    rw [String.data_append, List.length_append, h1]
    omega
  rw [hlen, scanLoop_abort (s.data.length + 1) _ _ semicolon s.data Error.EOF
    (by simp only [initLexer, NewReader, String.data_append]; rfl) h2]
  simp [parseIdentifer]

/-- Witness of `Parse_comment_at_end` at the input `; test`, with the lexer at
the `return` of the scan loop: it holds the token `SINGLE-LINE-COMMENT ; test`
that the result does not. -/
theorem Parse_comment_at_end_witness :
    Parse (";" ++ " test") = Outcome.ret ([], none) ∧
    parseSimpleTokens "; test" = Outcome.ret ([], some Error.EOF) ∧
    scanLoop 7 (initLexer "; test") =
      Outcome.ret (LoopExit.atReturn
        { tokRune := Char.ofNat 0, tokens := [⟨"SINGLE-LINE-COMMENT", "; test", 0, 0, 6⟩],
          currentLine := 0, currentColumn := 0, offset := 6, reader := ⟨[], none⟩ }
        Error.EOF) :=
  ⟨Parse_comment_at_end " test" (by decide), by decide, by decide⟩


/-! ## Escaped quotes -/

theorem escapedOnly_of_index (s : List Char) :
    ∀ last : Char,
      (∀ i, i < s.length → s[i]? = some quote →
        (i = 0 ∧ last = backslash) ∨ (0 < i ∧ s[i - 1]? = some backslash)) →
      (last :: s).getLast? ≠ some backslash → escapedOnly last s := by
  induction s with
  | nil =>
    intro last _ h2
    simpa [escapedOnly] using h2
  | cons c s ih =>
    intro last h1 h2
    refine ⟨fun hc => ?_, ih c (fun i hi hq => ?_) ?_⟩
    · rcases h1 0 (by simp) (by simp [hc]) with h | h
      · exact h.2
      · exact absurd h.1 (lt_irrefl 0)
    · rcases h1 (i + 1) (by simpa using hi) (by simpa using hq) with h | h
      · exact absurd h.1 (Nat.succ_ne_zero i)
      · cases i with
        | zero => left; simpa using h.2
        | succ j => right; refine ⟨Nat.succ_pos j, ?_⟩; simpa using h.2
    · rwa [List.getLast?_cons_cons] at h2

theorem parseIdentifer_string (a : String) (o1 : Int) :
    parseIdentifer [⟨"STRING", a, 0, 0, o1⟩] = ([⟨"STRING", a, 0, 0, o1⟩], none) := by
  have hne : ¬ ("STRING" = "IDENTIFER") := by decide
  simp [parseIdentifer, hne]

/-- C14: for every text `s` in which every double quote comes right after a
backslash and which does not end with a backslash, `Parse` on the input made
of a double quote, `s` and a double quote returns exactly one token, of type
`STRING`, whose literal is `s` verbatim (both delimiters excluded, backslashes
and escaped quotes kept as they are). -/
theorem Parse_escaped_string (s : String)
    (h1 : ∀ i, i < s.data.length → s.data[i]? = some quote →
      0 < i ∧ s.data[i - 1]? = some backslash)
    (h2 : s.data.getLast? ≠ some backslash) :
    ∃ off : Int, Parse (String.singleton quote ++ s ++ String.singleton quote) =
      Outcome.ret ([⟨"STRING", s, 0, 0, off⟩], none) := by
  have h0 : (Char.ofNat 0) ≠ backslash := by decide
  have he : escapedOnly (Char.ofNat 0) s.data := by
    apply escapedOnly_of_index _ _ (fun i hi hq => Or.inr (h1 i hi hq))
    cases hd : s.data with
    | nil => simpa using h0
    | cons c t => rw [hd] at h2; rwa [List.getLast?_cons_cons]
  have hin : (String.singleton quote ++ s ++ String.singleton quote).data =
      quote :: (s.data ++ quote :: []) := by simp
  obtain ⟨m, hm⟩ : ∃ m, (String.singleton quote ++ s ++ String.singleton quote).data.length + 1
      = m + 2 := ⟨s.data.length + 1, by rw [hin]; simp⟩
  obtain ⟨off, h3⟩ := runParsers_string
    { initLexer (String.singleton quote ++ s ++ String.singleton quote) with
      tokRune := quote
      reader := ⟨s.data ++ quote :: [], some quote⟩
      offset := 0 + (quote.utf8Size : Int) }
    s.data [] rfl rfl he
  refine ⟨off, ?_⟩
  unfold Parse parseSimpleTokens
  rw [hm, scanLoop_step (m + 1) _ _ quote _ (by simp only [initLexer, NewReader, hin]) h3,
    scanLoop_nil m _ rfl]
  simp [initLexer, parseIdentifer_string]

/-- Witness of `Parse_escaped_string`: the text `a\"b\\n`, with an escaped
quote and a backslash that is not the last rune. -/
theorem Parse_escaped_string_witness :
    ∃ off : Int,
      Parse (String.singleton quote ++ "a\\\"b\\n" ++ String.singleton quote) =
        Outcome.ret ([⟨"STRING", "a\\\"b\\n", 0, 0, off⟩], none) :=
  Parse_escaped_string "a\\\"b\\n" (by decide) (by decide)

/-! ## Comments are not nested -/

theorem noCloser_append_of_no_bar (s t : List Char) (hs : ∀ c ∈ s, c ≠ bar)
    (ht : noCloser t) : noCloser (s ++ t) := by
  induction s with
  | nil => exact ht
  | cons c s ih =>
    rw [List.cons_append, noCloser_cons]
    exact ⟨fun _ => hs c (List.mem_cons_self _ _),
      ih (fun d hd => hs d (List.mem_cons_of_mem _ hd))⟩

/-- C16: for all texts `a` and `b` that contain neither `|` nor `#`, with `a`
not empty, `Parse` on `#|` a `#|` b `|#` returns exactly one token, of type
`MULTIPLE-LINE-COMMENT`, whose literal is the whole input: the inner `#|` is
content and the first `|#` after it closes the comment. -/
theorem Parse_no_nested_comment (a b : String)
    (ha : ∀ c ∈ a.data, c ≠ bar ∧ c ≠ hash) (hb : ∀ c ∈ b.data, c ≠ bar ∧ c ≠ hash)
    (hne : a.data ≠ []) :
    ∃ off : Int, Parse ("#|" ++ a ++ "#|" ++ b ++ "|#") =
      Outcome.ret ([⟨"MULTIPLE-LINE-COMMENT", "#|" ++ a ++ "#|" ++ b ++ "|#", 0, 0, off⟩],
        none) := by
  have hbh : bar ≠ hash := by decide
  have hhb : hash ≠ bar := by decide
  have hin : ("#|" ++ a ++ "#|" ++ b ++ "|#").data =
      hash :: bar :: ((a.data ++ hash :: bar :: b.data) ++ bar :: hash :: []) := by
    simp only [String.data_append, List.append_assoc]; rfl
  have hnc : noCloser (bar :: ((a.data ++ hash :: bar :: b.data) ++ [bar])) := by
    have e1 : noCloser (b.data ++ [bar]) :=
      noCloser_append_of_no_bar _ _ (fun c hc => (hb c hc).1) (by simp [noCloser])
    have e2 : noCloser (bar :: (b.data ++ [bar])) := by
      rw [noCloser_cons]
      refine ⟨fun hh _ => ?_, e1⟩
      cases hd : b.data with
      | nil => rw [hd] at hh; simp at hh; exact hbh hh
      | cons d t =>
        rw [hd] at hh; simp at hh
        exact (hb d (by rw [hd]; exact List.mem_cons_self _ _)).2 hh
    have e3 : noCloser (hash :: bar :: (b.data ++ [bar])) := by
      rw [noCloser_cons]; exact ⟨fun _ => hhb, e2⟩
    have e4 : noCloser (a.data ++ hash :: bar :: (b.data ++ [bar])) :=
      noCloser_append_of_no_bar _ _ (fun c hc => (ha c hc).1) e3
    have e5 : (a.data ++ hash :: bar :: b.data) ++ [bar] =
        a.data ++ hash :: bar :: (b.data ++ [bar]) := by simp
    rw [e5, noCloser_cons]
    refine ⟨fun hh _ => ?_, e4⟩
    cases hd : a.data with
    | nil => exact hne hd
    | cons d t =>
      rw [hd] at hh; simp at hh
      exact (ha d (by rw [hd]; exact List.mem_cons_self _ _)).2 hh
  obtain ⟨m, hm⟩ : ∃ m, ("#|" ++ a ++ "#|" ++ b ++ "|#").data.length + 1 = m + 2 :=
    ⟨a.data.length + b.data.length + 5, by rw [hin]; simp; omega⟩
  obtain ⟨off, h3⟩ := runParsers_comment
    { initLexer ("#|" ++ a ++ "#|" ++ b ++ "|#") with
      tokRune := hash
      reader := ⟨bar :: ((a.data ++ hash :: bar :: b.data) ++ bar :: hash :: []), some hash⟩
      offset := 0 + (hash.utf8Size : Int) }
    (a.data ++ hash :: bar :: b.data) [] rfl rfl hnc
  refine ⟨off, ?_⟩
  unfold Parse parseSimpleTokens
  rw [hm, scanLoop_step (m + 1) _ _ hash _ (by simp only [initLexer, NewReader, hin]) h3,
    scanLoop_nil m _ rfl]
  simp only [initLexer, List.nil_append, ne_eq, reduceCtorEq, not_false_eq_true, not_true_eq_false,
    and_false, if_false, parseIdentifer_comment]
  exact congrArg (fun v => Outcome.ret ([(⟨"MULTIPLE-LINE-COMMENT", v, 0, 0, off⟩ : Token)],
    (none : Option Error))) (String.ext hin.symm)

/-- Witness of `Parse_no_nested_comment`: the input `#|a #|b|#`. -/
theorem Parse_no_nested_comment_witness :
    ∃ off : Int, Parse ("#|" ++ "a " ++ "#|" ++ "b" ++ "|#") =
      Outcome.ret ([⟨"MULTIPLE-LINE-COMMENT", "#|" ++ "a " ++ "#|" ++ "b" ++ "|#", 0, 0, off⟩],
        none) :=
  Parse_no_nested_comment "a " "b" (by decide) (by decide) (by decide)


/-! ## Identifiers and separators -/

/-- The loop of `identiferTok` on the runes `w`, none a separator, followed by
a separator `d`: the current rune and `w` become the identifier and `d` is put
back. -/
theorem identiferLoop_closed (w rest : List Char) (d : Char)
    (hd : isIdentiferSeparator d = true) :
    ∀ (n : Nat) (l : lexer) (identifer : String) (ok : Bool) (err : Option Error),
      isIdentiferSeparator l.tokRune = false → l.reader.unread = w ++ d :: rest →
      (∀ c ∈ w, isIdentiferSeparator c = false) → w.length < n →
      ∃ off : Int, identiferLoop n l identifer ok err =
        Outcome.ret ({ l with tokRune := d, offset := off, reader := ⟨d :: rest, none⟩ },
          ⟨identifer.data ++ l.tokRune :: w⟩, true, none) := by
  induction w with
  | nil =>
    intro n l identifer ok err ht hu _ hn
    obtain ⟨m, rfl⟩ : ∃ m, n = m + 1 := ⟨n - 1, by simp at hn; omega⟩
    simp only [List.nil_append] at hu
    refine ⟨l.offset, ?_⟩
    unfold identiferLoop
    simp only [ht, Bool.false_eq_true, if_false, ReadRune_cons _ d rest hu, hd, if_true,
      UnreadRune_some]
    congr 1
  | cons e w ih =>
    intro n l identifer ok err ht hu hw hn
    obtain ⟨m, rfl⟩ : ∃ m, n = m + 1 := ⟨n - 1, by simp at hn; omega⟩
    simp only [List.cons_append] at hu
    have he : isIdentiferSeparator e = false := hw e (List.mem_cons_self _ _)
    obtain ⟨off, h1⟩ := ih m
      { l with tokRune := e, reader := ⟨w ++ d :: rest, some e⟩,
               offset := l.offset + (e.utf8Size : Int) }
      (identifer.push l.tokRune) true none he rfl
      (fun c hc => hw c (List.mem_cons_of_mem _ hc)) (by simp at hn; omega)
    refine ⟨off, ?_⟩
    unfold identiferLoop
    simp only [ht, Bool.false_eq_true, if_false, ReadRune_cons _ e _ hu, he, h1]
    simp

/-- One dispatch on a rune that starts an identifier which a separator ends. -/
theorem runParsers_identifer (l : lexer) (w rest : List Char) (d : Char)
    (ht : isIdentiferSeparator l.tokRune = false)
    (h1 : l.tokRune ≠ semicolon) (h2 : l.tokRune ≠ quote) (h3 : l.tokRune ≠ hash)
    (hu : l.reader.unread = w ++ d :: rest) (hw : ∀ c ∈ w, isIdentiferSeparator c = false)
    (hd : isIdentiferSeparator d = true) :
    ∃ off : Int, runParsers tokenParsers l =
      Outcome.ret (none,
        { l with tokRune := d, offset := off, reader := ⟨d :: rest, none⟩,
                 tokens := l.tokens ++
                   [⟨"IDENTIFER", ⟨l.tokRune :: w⟩, l.currentLine, l.currentColumn, off⟩] }) := by
  obtain ⟨off, h4⟩ := identiferLoop_closed w rest d hd (l.reader.unread.length + 1) l ""
    false none ht hu hw (by rw [hu]; simp; omega)
  have hs : isWhitespace l.tokRune = false ∧ l.tokRune ≠ lparen ∧ l.tokRune ≠ rparen := by
    simp only [isIdentiferSeparator, Bool.or_eq_false_iff, beq_eq_false_iff_ne, ne_eq] at ht
    simp only [isWhitespace, Bool.or_eq_false_iff, beq_eq_false_iff_ne, ne_eq]
    tauto
  refine ⟨off, ?_⟩
  unfold tokenParsers
  rw [runParsers_miss _ _ _ _ (separatorTok_miss l hs.1),
    runParsers_miss _ _ _ _ (singleLineCommentTok_miss l h1),
    runParsers_miss _ _ _ _ (multipleLineCommentTok_miss l h3),
    runParsers_miss _ _ _ _ (listBeginTok_miss l hs.2.1),
    runParsers_miss _ _ _ _ (listEndTok_miss l hs.2.2),
    runParsers_miss _ _ _ _ (stringTok_miss l h2)]
  apply runParsers_hit _ _ _ _ true _ _ (fun _ => rfl)
  unfold identiferTok
  rw [h4]
  rfl

/-- One dispatch on an identifier separator: a `SEPARATOR`, `LIST-BEGIN` or
`LIST-END` token with that rune alone. -/
theorem runParsers_separator (l : lexer) (h : isIdentiferSeparator l.tokRune = true) :
    runParsers tokenParsers l =
      Outcome.ret (none, l.appendTok (String.singleton l.tokRune)
        (if isWhitespace l.tokRune then "SEPARATOR"
         else if l.tokRune = lparen then "LIST-BEGIN" else "LIST-END")) := by
  unfold tokenParsers
  cases hw : isWhitespace l.tokRune with
  | true =>
    apply runParsers_hit _ _ _ _ true _ _ (fun _ => rfl)
    simp [separatorTok, hw]
  | false =>
    rw [runParsers_miss _ _ _ _ (separatorTok_miss l hw)]
    have hp : l.tokRune = lparen ∨ l.tokRune = rparen := by
      simp only [isIdentiferSeparator, Bool.or_eq_true, beq_iff_eq] at h
      simp only [isWhitespace, Bool.or_eq_false_iff, beq_eq_false_iff_ne, ne_eq] at hw
      tauto
    rcases hp with hp | hp
    · rw [runParsers_miss _ _ _ _ (singleLineCommentTok_miss l (by rw [hp]; decide)),
        runParsers_miss _ _ _ _ (multipleLineCommentTok_miss l (by rw [hp]; decide))]
      apply runParsers_hit _ _ _ _ true _ _ (fun _ => rfl)
      simp only [listBeginTok, hp, if_true, Bool.false_eq_true, if_false]
      rfl
    · rw [runParsers_miss _ _ _ _ (singleLineCommentTok_miss l (by rw [hp]; decide)),
        runParsers_miss _ _ _ _ (multipleLineCommentTok_miss l (by rw [hp]; decide)),
        runParsers_miss _ _ _ _ (listBeginTok_miss l (by rw [hp]; decide))]
      apply runParsers_hit _ _ _ _ true _ _ (fun _ => rfl)
      have hne : rparen ≠ lparen := by decide
      simp only [listEndTok, hp, if_true, Bool.false_eq_true, if_false, hne]
      rfl


/-- C15: for every non-empty text `w` without identifier separator whose first
code point is none of `;`, `"`, `#`, and every identifier separator `d`,
`Parse` on `w` followed by `d` returns exactly two tokens: one with literal `w`
and type `IDENTIFER` or `NUMBER` (`NUMBER` when `w` is numeric), then the token
for `d` alone (`SEPARATOR`, `LIST-BEGIN` or `LIST-END` with literal `d`): `d`
is neither taken into the identifier nor lost. -/
theorem Parse_identifer_pushback (w : String) (d : Char)
    (hne : w.data ≠ [])
    (hw : ∀ c ∈ w.data, isIdentiferSeparator c = false)
    (hfirst : ∀ c, w.data.head? = some c → c ≠ semicolon ∧ c ≠ quote ∧ c ≠ hash)
    (hd : isIdentiferSeparator d = true) :
    ∃ o1 o2 : Int, Parse (w ++ String.singleton d) =
      Outcome.ret ([⟨if isNumeric w then "NUMBER" else "IDENTIFER", w, 0, 0, o1⟩,
                    ⟨if isWhitespace d then "SEPARATOR"
                     else if d = lparen then "LIST-BEGIN" else "LIST-END",
                     String.singleton d, 0, 0, o2⟩], none) := by
  obtain ⟨c, t, hct⟩ : ∃ c t, w.data = c :: t := by
    cases hwd : w.data with
    | nil => exact absurd hwd hne
    | cons c t => exact ⟨c, t, rfl⟩
  have hc : isIdentiferSeparator c = false := hw c (by rw [hct]; exact List.mem_cons_self _ _)
  have ht : ∀ e ∈ t, isIdentiferSeparator e = false :=
    fun e he => hw e (by rw [hct]; exact List.mem_cons_of_mem _ he)
  obtain ⟨hc1, hc2, hc3⟩ := hfirst c (by rw [hct]; rfl)
  have hin : (w ++ String.singleton d).data = c :: (t ++ d :: []) := by
    simp [hct]
  have hwc : (⟨c :: t⟩ : String) = w := String.ext hct.symm
  obtain ⟨m, hm⟩ : ∃ m, (w ++ String.singleton d).data.length + 1 = m + 3 :=
    ⟨t.length, by rw [hin]; simp⟩
  obtain ⟨o1, h1⟩ := runParsers_identifer
    { initLexer (w ++ String.singleton d) with
      tokRune := c
      reader := ⟨t ++ d :: [], some c⟩
      offset := 0 + (c.utf8Size : Int) }
    t [] d hc hc1 hc2 hc3 rfl ht hd
  have h2 := runParsers_separator
    { tokRune := d, tokens := [⟨"IDENTIFER", w, 0, 0, o1⟩], currentLine := 0,
      currentColumn := 0, offset := o1 + (d.utf8Size : Int), reader := ⟨[], some d⟩ } hd
  have hs : ¬ ((if isWhitespace d then "SEPARATOR"
      else if d = lparen then "LIST-BEGIN" else "LIST-END") = "IDENTIFER") := by
    split
    · decide
    · split <;> decide
  refine ⟨o1, o1 + (d.utf8Size : Int), ?_⟩
  unfold Parse parseSimpleTokens
  rw [hm, scanLoop_step (m + 2) _ _ c _ (by simp only [initLexer, NewReader, hin]) h1]
  simp only [initLexer, List.nil_append, hwc]
  rw [scanLoop_step (m + 1) _ _ d [] rfl h2, scanLoop_nil m _ rfl]
  simp only [lexer.appendTok, ne_eq, reduceCtorEq, not_false_eq_true, not_true_eq_false,
    and_false, if_false, parseIdentifer, List.map_cons, List.map_nil, List.cons_append,
    List.nil_append, if_true, hs]
  by_cases hn : isNumeric w = true
  · simp [hn]
  · simp [hn]

/-- Witness of `Parse_identifer_pushback`: the identifier `print` before an
opening parenthesis. -/
theorem Parse_identifer_pushback_witness :
    ∃ o1 o2 : Int, Parse ("print" ++ String.singleton lparen) =
      Outcome.ret ([⟨if isNumeric "print" then "NUMBER" else "IDENTIFER", "print", 0, 0, o1⟩,
                    ⟨if isWhitespace lparen then "SEPARATOR"
                     else if lparen = lparen then "LIST-BEGIN" else "LIST-END",
                     String.singleton lparen, 0, 0, o2⟩], none) :=
  Parse_identifer_pushback "print" lparen (by decide) (by decide) (by decide) (by decide)

/-- The scan loop on a text made of whitespace only: one `SEPARATOR` token per
rune, then the `break`. -/
theorem scanLoop_separators (ws : List Char) :
    ∀ (n : Nat) (l : lexer), l.reader.unread = ws → (∀ c ∈ ws, isWhitespace c = true) →
      ws.length < n →
      ∃ l1 new, scanLoop n l = Outcome.ret (LoopExit.atBreak l1) ∧
        l1.tokens = l.tokens ++ new ∧ (∀ t ∈ new, t.Typ = "SEPARATOR") ∧
        List.Forall₂ (fun (t : Token) c => t.Typ = "SEPARATOR" ∧ t.Literal = String.singleton c)
          new ws := by
  induction ws with
  | nil =>
    intro n l hu _ hn
    obtain ⟨m, rfl⟩ : ∃ m, n = m + 1 := ⟨n - 1, by simp at hn; omega⟩
    exact ⟨_, [], scanLoop_nil m l hu, by simp, by simp, List.Forall₂.nil⟩
  | cons c ws ih =>
    intro n l hu hws hn
    obtain ⟨m, rfl⟩ : ∃ m, n = m + 1 := ⟨n - 1, by simp at hn; omega⟩
    have hc : isWhitespace c = true := hws c (List.mem_cons_self _ _)
    have hsep : isIdentiferSeparator c = true := by
      simp only [isWhitespace, Bool.or_eq_true, beq_iff_eq] at hc
      simp only [isIdentiferSeparator, Bool.or_eq_true, beq_iff_eq]
      tauto
    have h1 := runParsers_separator
      { l with tokRune := c, reader := ⟨ws, some c⟩, offset := l.offset + (c.utf8Size : Int) }
      hsep
    simp only [hc, if_true] at h1
    obtain ⟨l1, new, h2, h3, h4, h5⟩ := ih m
      (lexer.appendTok
        { l with tokRune := c, reader := ⟨ws, some c⟩, offset := l.offset + (c.utf8Size : Int) }
        (String.singleton c) "SEPARATOR")
      rfl (fun e he => hws e (List.mem_cons_of_mem _ he)) (by simp at hn; omega)
    refine ⟨l1, ⟨"SEPARATOR", String.singleton c, l.currentLine, l.currentColumn,
      l.offset + (c.utf8Size : Int)⟩ :: new, ?_, ?_, ?_, List.Forall₂.cons ⟨rfl, rfl⟩ h5⟩
    · rw [scanLoop_step m l _ c ws hu h1]
      exact h2
    · rw [h3]
      simp [lexer.appendTok]
    · intro t ht
      rcases List.mem_cons.mp ht with ht | ht
      · rw [ht]
      · exact h4 t ht

theorem parseIdentifer_of_no_identifer (ts : List Token)
    (h : ∀ t ∈ ts, t.Typ ≠ "IDENTIFER") : parseIdentifer ts = (ts, none) := by
  simp only [parseIdentifer, Prod.mk.injEq, and_true]
  conv => rhs; rw [← List.map_id ts]
  apply List.map_congr_left
  intro t ht
  simp [h t ht]

/-- C17: for every input made only of code points of the whitespace set,
`Parse` returns exactly one `SEPARATOR` token per input code point, in input
order, each with that single code point as its literal. -/
theorem Parse_separators (input : String) (h : ∀ c ∈ input.data, isWhitespace c = true) :
    ∃ ts, Parse input = Outcome.ret (ts, none) ∧
      List.Forall₂ (fun (t : Token) c => t.Typ = "SEPARATOR" ∧ t.Literal = String.singleton c)
        ts input.data := by
  obtain ⟨l1, new, h1, h2, h5, h3⟩ := scanLoop_separators input.data (input.data.length + 1)
    (initLexer input) rfl h (Nat.lt_succ_self _)
  have hne : ¬ ("SEPARATOR" = "IDENTIFER") := by decide
  have h4 : ∀ t ∈ new, t.Typ ≠ "IDENTIFER" := by
    intro t ht
    rw [h5 t ht]
    exact hne
  refine ⟨new, ?_, h3⟩
  unfold Parse parseSimpleTokens
  rw [h1]
  simp only [h2, initLexer, List.nil_append, ne_eq, reduceCtorEq, not_false_eq_true,
    not_true_eq_false, and_false, if_false, parseIdentifer_of_no_identifer new h4]

/-- Witness of `Parse_separators`: a space, a tab, a newline and a no-break
space. -/
theorem Parse_separators_witness :
    ∃ ts, Parse (String.mk [space, tab, newline, nbsp]) = Outcome.ret (ts, none) ∧
      List.Forall₂ (fun (t : Token) c => t.Typ = "SEPARATOR" ∧ t.Literal = String.singleton c)
        ts (String.mk [space, tab, newline, nbsp]).data :=
  Parse_separators (String.mk [space, tab, newline, nbsp]) (by decide)


/-! ## Offsets -/

theorem utf8Len_nil : utf8Len [] = 0 := rfl

theorem utf8Len_cons (c : Char) (s : List Char) :
    utf8Len (c :: s) = (c.utf8Size : Int) + utf8Len s := rfl

theorem utf8Len_append (s t : List Char) : utf8Len (s ++ t) = utf8Len s + utf8Len t := by
  induction s with
  | nil => rw [List.nil_append, utf8Len_nil, Int.zero_add]
  | cons c s ih => rw [List.cons_append, utf8Len_cons, utf8Len_cons, ih, Int.add_assoc]

theorem utf8Len_singleton (c : Char) : utf8Len [c] = (c.utf8Size : Int) := by
  rw [utf8Len_cons, utf8Len_nil, Int.add_zero]

/-- The loop of `singleLineCommentTok` advances the offset by the bytes it adds
to the value. -/
theorem singleLineCommentLoop_offset (n : Nat) :
    ∀ (l l1 : lexer) (value v : String),
      singleLineCommentLoop n l value = Outcome.ret (l1, v, none) →
      l1.offset - l.offset = utf8Len v.data - utf8Len value.data := by
  induction n with
  | zero => intro l l1 value v h; simp [singleLineCommentLoop] at h
  | succ n ih =>
    intro l l1 value v h
    unfold singleLineCommentLoop at h
    by_cases hnl : l.tokRune = newline
    · simp only [hnl, ne_eq, not_true_eq_false, if_false, Outcome.ret.injEq, Prod.mk.injEq,
        and_true] at h
      obtain ⟨rfl, rfl⟩ := h
      omega
    · cases hu : l.reader.unread with
      | nil => simp [hnl, ReadRune_nil _ hu] at h
      | cons c rest =>
        simp only [ne_eq, hnl, not_false_eq_true, if_true, ReadRune_cons _ c rest hu] at h
        have := ih _ _ _ _ h
        simp only [String.data_push, utf8Len_append, utf8Len_singleton] at this
        omega

/-- The loop of `stringTok`, left at a closing quote, advances the offset by
the bytes it adds to the value and those of the quote. -/
theorem stringLoop_offset (n : Nat) :
    ∀ (l l1 : lexer) (value v : String) (lastRune : Char),
      stringLoop n l value lastRune = Outcome.ret (l1, v, none) →
      l1.offset - l.offset = utf8Len v.data - utf8Len value.data + (quote.utf8Size : Int) := by
  induction n with
  | zero => intro l l1 value v lastRune h; simp [stringLoop] at h
  | succ n ih =>
    intro l l1 value v lastRune h
    unfold stringLoop at h
    cases hu : l.reader.unread with
    | nil => simp [ReadRune_nil _ hu] at h
    | cons c rest =>
      simp only [ReadRune_cons _ c rest hu] at h
      by_cases hq : lastRune ≠ backslash ∧ c = quote
      · simp only [hq, ne_eq, not_false_eq_true, and_self, if_true, Outcome.ret.injEq,
          Prod.mk.injEq, and_true] at h
        obtain ⟨rfl, rfl⟩ := h
        simp only [hq.2]
        omega
      · simp only [hq, if_false] at h
        have := ih _ _ _ _ _ h
        simp only [String.data_push, utf8Len_append, utf8Len_singleton] at this
        omega

/-- The loop of `identiferTok`, entered on a rune that is not a separator and
left at a separator, advances the offset by the bytes it adds to the
identifier, the first rune apart. -/
theorem identiferLoop_offset (n : Nat) :
    ∀ (l l1 : lexer) (identifer v : String) (ok ok1 : Bool) (err : Option Error),
      isIdentiferSeparator l.tokRune = false →
      identiferLoop n l identifer ok err = Outcome.ret (l1, v, ok1, none) →
      l1.offset - l.offset =
        utf8Len v.data - utf8Len identifer.data - (l.tokRune.utf8Size : Int) := by
  induction n with
  | zero => intro l l1 identifer v ok ok1 err _ h; simp [identiferLoop] at h
  | succ n ih =>
    intro l l1 identifer v ok ok1 err hs h
    unfold identiferLoop at h
    cases hu : l.reader.unread with
    | nil => simp [hs, ReadRune_nil _ hu] at h
    | cons c rest =>
      simp only [hs, Bool.false_eq_true, if_false, ReadRune_cons _ c rest hu] at h
      cases hc : isIdentiferSeparator c with
      | true =>
        simp only [hc, if_true, UnreadRune_some, Outcome.ret.injEq, Prod.mk.injEq,
          and_true] at h
        obtain ⟨rfl, rfl, _⟩ := h
        simp only [String.data_push, utf8Len_append, utf8Len_singleton]
        omega
      | false =>
        simp only [hc, Bool.false_eq_true, if_false] at h
        have := ih { l with tokRune := c, reader := ⟨rest, some c⟩,
                            offset := l.offset + (c.utf8Size : Int) }
          l1 (identifer.push l.tokRune) v true ok1 none hc h
        simp only [String.data_push, utf8Len_append, utf8Len_singleton] at this
        try dsimp only at this
        omega

/-- The loop of `multipleLineCommentTok`, left by its `break`, advances the
offset by the bytes it adds to the value less one: the closing `#` is read
without advancing the offset. -/
theorem multipleLineCommentLoop_offset (n : Nat) :
    ∀ (l l1 : lexer) (value v : String) (ok ok1 : Bool) (e : Option Error),
      multipleLineCommentLoop n l value ok = Outcome.ret (some v, ok1, e, l1) →
      l1.offset - l.offset = utf8Len v.data - utf8Len value.data - 1 := by
  have hh : utf8Len ("#" : String).data = 1 := rfl
  induction n with
  | zero => intro l l1 value v ok ok1 e h; simp [multipleLineCommentLoop] at h
  | succ n ih =>
    intro l l1 value v ok ok1 e h
    unfold multipleLineCommentLoop at h
    cases hu : l.reader.unread with
    | nil => simp [ReadRune_nil _ hu] at h
    | cons c rest =>
      simp only [ReadRune_cons _ c rest hu] at h
      by_cases hc : c = bar
      · cases rest with
        | nil =>
          rw [ifRunePattern_nil _ bar hash hc rfl] at h
          simp at h
        | cons d rest1 =>
          rw [ifRunePattern_cons _ bar hash d rest1 hc rfl] at h
          by_cases hd : d = hash
          · simp only [hd, beq_self_eq_true, if_true, RuneScanner.ReadRune, Outcome.ret.injEq,
              Prod.mk.injEq, Option.some.injEq] at h
            obtain ⟨rfl, _, _, rfl⟩ := h
            simp only [String.data_append, String.data_push, utf8Len_append, utf8Len_singleton,
              hh]
            omega
          · have hdf : (d == hash) = false := by simpa using hd
            simp only [hdf, Bool.false_eq_true, if_false] at h
            have := ih _ _ _ _ _ _ _ h
            simp only [String.data_push, utf8Len_append, utf8Len_singleton] at this
            try dsimp only at this
            omega
      · rw [ifRunePattern_ne _ bar hash hc] at h
        simp only [Bool.false_eq_true, if_false] at h
        have := ih _ _ _ _ _ _ _ h
        simp only [String.data_push, utf8Len_append, utf8Len_singleton] at this
        try dsimp only at this
        omega


/-! ## One token per dispatch -/

theorem mem_scanTypes :
    "SEPARATOR" ∈ scanTypes ∧ "SINGLE-LINE-COMMENT" ∈ scanTypes ∧
    "MULTIPLE-LINE-COMMENT" ∈ scanTypes ∧ "LIST-BEGIN" ∈ scanTypes ∧
    "LIST-END" ∈ scanTypes ∧ "STRING" ∈ scanTypes ∧ "IDENTIFER" ∈ scanTypes := by
  decide

/-- Appending a token of a type other than `STRING` and
`MULTIPLE-LINE-COMMENT`, whose literal accounts for the offset advance. -/
theorem Emitted_appendTok_plain (l l0 : lexer) (v ty : String) (hty : ty ∈ scanTypes)
    (hs : ty ≠ "STRING") (hm : ty ≠ "MULTIPLE-LINE-COMMENT") (htok : l0.tokens = l.tokens)
    (hoff : l0.offset = l.offset - (l.tokRune.utf8Size : Int) + utf8Len v.data) :
    Emitted l (l0.appendTok v ty) := by
  refine ⟨⟨ty, v, l0.currentLine, l0.currentColumn, l0.offset⟩, ?_, hty, rfl, ?_⟩
  · simp [lexer.appendTok, htok]
  · simp only [lexer.appendTok, Token.text, Token.uncounted, if_neg hs, if_neg hm, hoff]
    omega

theorem separatorTok_emit (l : lexer) (h : isWhitespace l.tokRune = true) :
    ∃ l1, separatorTok l = Outcome.ret (true, none, l1) ∧ Emitted l l1 := by
  refine ⟨l.appendTok (String.singleton l.tokRune) "SEPARATOR", by simp [separatorTok, h],
    Emitted_appendTok_plain l l _ _ mem_scanTypes.1 (by decide) (by decide) rfl ?_⟩
  rw [String.data_singleton, utf8Len_singleton]
  omega

theorem listBeginTok_emit (l : lexer) (h : l.tokRune = lparen) :
    ∃ l1, listBeginTok l = Outcome.ret (true, none, l1) ∧ Emitted l l1 := by
  have hd : utf8Len ("(" : String).data = (lparen.utf8Size : Int) := rfl
  refine ⟨l.appendTok "(" "LIST-BEGIN", by simp [listBeginTok, h],
    Emitted_appendTok_plain l l _ _ mem_scanTypes.2.2.2.1 (by decide) (by decide) rfl ?_⟩
  rw [hd, h]
  omega

theorem listEndTok_emit (l : lexer) (h : l.tokRune = rparen) :
    ∃ l1, listEndTok l = Outcome.ret (true, none, l1) ∧ Emitted l l1 := by
  have hd : utf8Len (")" : String).data = (rparen.utf8Size : Int) := rfl
  refine ⟨l.appendTok ")" "LIST-END", by simp [listEndTok, h],
    Emitted_appendTok_plain l l _ _ mem_scanTypes.2.2.2.2.1 (by decide) (by decide) rfl ?_⟩
  rw [hd, h]
  omega

theorem singleLineCommentTok_emit (l : lexer) (h : l.tokRune = semicolon) :
    ∃ e l1, singleLineCommentTok l = Outcome.ret (true, e, l1) ∧ (e = none → Emitted l l1) := by
  obtain ⟨l0, v, e, h1, h2, h3, _⟩ :=
    singleLineCommentLoop_spec (l.reader.unread.length + 1) l ";" (Nat.lt_succ_self _)
  have hd : utf8Len (";" : String).data = (semicolon.utf8Size : Int) := rfl
  refine ⟨e, l0.appendTok v "SINGLE-LINE-COMMENT", ?_, fun he => ?_⟩
  · rcases h2 with h2 | h2 <;> subst h2 <;> simp [singleLineCommentTok, h, h1]
  · subst he
    have h4 := singleLineCommentLoop_offset _ _ _ _ _ h1
    refine Emitted_appendTok_plain l l0 _ _ mem_scanTypes.2.1 (by decide) (by decide) h3 ?_
    rw [hd] at h4
    rw [h]
    omega

theorem identiferTok_emit (l : lexer) (h : isIdentiferSeparator l.tokRune = false) :
    ∃ e l1, identiferTok l = Outcome.ret (true, e, l1) ∧ (e = none → Emitted l l1) := by
  obtain ⟨l0, v, e, h1, _, h3, _⟩ :=
    identiferLoop_spec (l.reader.unread.length + 1) l "" false none h (Nat.lt_succ_self _)
  have hk : identiferTok l = Outcome.ret (true, e, l0.appendTok v "IDENTIFER") := by
    unfold identiferTok
    rw [h1]
    rfl
  refine ⟨e, l0.appendTok v "IDENTIFER", hk, fun he => ?_⟩
  subst he
  have h4 := identiferLoop_offset _ _ _ _ _ _ _ _ h h1
  have hd : utf8Len ("" : String).data = 0 := rfl
  refine Emitted_appendTok_plain l l0 _ _ mem_scanTypes.2.2.2.2.2.2 (by decide) (by decide) h3 ?_
  rw [hd] at h4
  omega

theorem stringTok_emit (l : lexer) (h : l.tokRune = quote) :
    ∃ e l1, stringTok l = Outcome.ret (true, e, l1) ∧ (e = none → Emitted l l1) := by
  obtain ⟨l0, v, e, h1, _, h3, _⟩ :=
    stringLoop_spec (l.reader.unread.length + 1) l "" (Char.ofNat 0) (Nat.lt_succ_self _)
  refine ⟨e, l0.appendTok v "STRING", by simp [stringTok, h, h1], fun he => ?_⟩
  subst he
  have h4 := stringLoop_offset _ _ _ _ _ _ h1
  have hd : utf8Len ("" : String).data = 0 := rfl
  have hm : ¬ ("STRING" = "MULTIPLE-LINE-COMMENT") := by decide
  refine ⟨⟨"STRING", v, l0.currentLine, l0.currentColumn, l0.offset⟩, ?_,
    mem_scanTypes.2.2.2.2.2.1, rfl, ?_⟩
  · simp [lexer.appendTok, h3]
  · simp only [lexer.appendTok, Token.text, Token.uncounted, if_pos, if_neg hm,
      String.data_append, String.data_singleton, utf8Len_append, utf8Len_singleton, h]
    rw [hd] at h4
    omega

/-- On a `#` the recognizer `multipleLineCommentTok` either returns an error,
or appends a whole comment, or (the next rune is not `|`) reports no match and
leaves the rune, the tokens, the offset and the unread text as they were. -/
theorem multipleLineCommentTok_emit (l : lexer) (h : l.tokRune = hash) :
    (∃ ok e l1, multipleLineCommentTok l = Outcome.ret (ok, some e, l1)) ∨
    (∃ l1, multipleLineCommentTok l = Outcome.ret (true, none, l1) ∧ Emitted l l1) ∨
    (∃ l1, multipleLineCommentTok l = Outcome.ret (false, none, l1) ∧
      l1.tokRune = l.tokRune ∧ l1.tokens = l.tokens ∧ l1.offset = l.offset ∧
      l1.reader.unread = l.reader.unread) := by
  have hd : utf8Len ("#" : String).data = 1 := rfl
  have hsz : (hash.utf8Size : Int) = 1 := rfl
  have hs : ¬ ("MULTIPLE-LINE-COMMENT" = "STRING") := by decide
  cases hu : l.reader.unread with
  | nil =>
    exact Or.inl ⟨Char.ofNat 0 == bar, Error.EOF, { l with reader := ⟨[], none⟩ }, by
      simp [multipleLineCommentTok, ifRunePattern_nil _ hash bar h hu]⟩
  | cons d rest =>
    by_cases hdb : d = bar
    · subst hdb
      obtain ⟨ov, ok1, e, l1, h1, h2, h3⟩ :=
        multipleLineCommentLoop_spec ((bar :: rest).length + 1)
          { l with reader := ⟨bar :: rest, none⟩ } "#" true (Nat.lt_succ_self _)
      have h1' := h1
      simp only [List.length_cons] at h1
      rcases h3 with ⟨h3, h4⟩ | ⟨v, h3, h4, h5, _, _⟩
      · subst h3 h4
        exact Or.inl ⟨ok1, Error.EOF, l1, by
          simp only [multipleLineCommentTok, ifRunePattern_cons _ hash bar bar rest h hu]
          simp [h1]⟩
      · subst h3 h4 h5
        refine Or.inr (Or.inl ⟨l1.appendTok v "MULTIPLE-LINE-COMMENT", ?_, ?_⟩)
        · simp only [multipleLineCommentTok, ifRunePattern_cons _ hash bar bar rest h hu]
          simp [h1]
        · have h6 := multipleLineCommentLoop_offset _ _ _ _ _ _ _ _ h1'
          refine ⟨⟨"MULTIPLE-LINE-COMMENT", v, l1.currentLine, l1.currentColumn, l1.offset⟩,
            ?_, mem_scanTypes.2.2.1, rfl, ?_⟩
          · simp [lexer.appendTok, h2]
          · simp only [lexer.appendTok, Token.text, Token.uncounted, if_neg hs, if_true, h,
              hsz]
            rw [hd] at h6
            simp only at h6
            omega
    · exact Or.inr (Or.inr ⟨{ l with reader := ⟨d :: rest, none⟩ }, by
        simp only [multipleLineCommentTok, ifRunePattern_cons _ hash bar d rest h hu]
        simp [hdb], rfl, rfl, rfl, rfl⟩)

theorem Emitted_of_same (l l0 l1 : lexer) (h1 : l0.tokRune = l.tokRune)
    (h2 : l0.tokens = l.tokens) (h3 : l0.offset = l.offset)
    (h : Emitted l0 l1) : Emitted l l1 := by
  unfold Emitted at h ⊢
  rw [h1, h2, h3] at h
  exact h


/-- One dispatch that returns a nil error appended exactly one token. -/
theorem runParsers_emit (l : lexer) :
    ∃ e l1, runParsers tokenParsers l = Outcome.ret (e, l1) ∧ (e = none → Emitted l l1) := by
  unfold tokenParsers
  cases hw : isWhitespace l.tokRune with
  | true =>
    obtain ⟨l1, h1, h2⟩ := separatorTok_emit l hw
    exact ⟨none, l1, runParsers_hit _ _ _ _ _ _ h1 (fun _ => rfl), fun _ => h2⟩
  | false =>
    rw [runParsers_miss _ _ _ _ (separatorTok_miss l hw)]
    by_cases hs : l.tokRune = semicolon
    · obtain ⟨e, l1, h1, h3⟩ := singleLineCommentTok_emit l hs
      exact ⟨e, l1, runParsers_hit _ _ _ _ _ _ h1 (fun _ => rfl), h3⟩
    rw [runParsers_miss _ _ _ _ (singleLineCommentTok_miss l hs)]
    have tail : ∀ l0 : lexer, l0.tokRune = l.tokRune → l0.tokens = l.tokens →
        l0.offset = l.offset →
        ∃ e l1, runParsers [listBeginTok, listEndTok, stringTok, identiferTok, notImplemented] l0
            = Outcome.ret (e, l1) ∧ (e = none → Emitted l l1) := by
      intro l0 e1 e2 e3
      by_cases hlp : l0.tokRune = lparen
      · obtain ⟨l1, h1, h2⟩ := listBeginTok_emit l0 hlp
        exact ⟨none, l1, runParsers_hit _ _ _ _ _ _ h1 (fun _ => rfl),
          fun _ => Emitted_of_same l l0 l1 e1 e2 e3 h2⟩
      rw [runParsers_miss _ _ _ _ (listBeginTok_miss l0 hlp)]
      by_cases hrp : l0.tokRune = rparen
      · obtain ⟨l1, h1, h2⟩ := listEndTok_emit l0 hrp
        exact ⟨none, l1, runParsers_hit _ _ _ _ _ _ h1 (fun _ => rfl),
          fun _ => Emitted_of_same l l0 l1 e1 e2 e3 h2⟩
      rw [runParsers_miss _ _ _ _ (listEndTok_miss l0 hrp)]
      by_cases hq : l0.tokRune = quote
      · obtain ⟨e, l1, h1, h3⟩ := stringTok_emit l0 hq
        exact ⟨e, l1, runParsers_hit _ _ _ _ _ _ h1 (fun _ => rfl),
          fun he => Emitted_of_same l l0 l1 e1 e2 e3 (h3 he)⟩
      rw [runParsers_miss _ _ _ _ (stringTok_miss l0 hq)]
      have hsep : isIdentiferSeparator l0.tokRune = false := by
        rw [e1] at hlp hrp ⊢
        simp only [isWhitespace, Bool.or_eq_false_iff, beq_eq_false_iff_ne, ne_eq] at hw
        simp only [isIdentiferSeparator, Bool.or_eq_false_iff, beq_eq_false_iff_ne, ne_eq]
        tauto
      obtain ⟨e, l1, h1, h3⟩ := identiferTok_emit l0 hsep
      exact ⟨e, l1, runParsers_hit _ _ _ _ _ _ h1 (fun _ => rfl),
        fun he => Emitted_of_same l l0 l1 e1 e2 e3 (h3 he)⟩
    by_cases hh : l.tokRune = hash
    · rcases multipleLineCommentTok_emit l hh with
        ⟨ok, e, l1, h1⟩ | ⟨l1, h1, h2⟩ | ⟨l1, h1, h2, h3, h4, _⟩
      · exact ⟨_, l1, runParsers_hit _ _ _ _ _ _ h1 (fun he => by simp at he),
          fun he => by simp at he⟩
      · exact ⟨none, l1, runParsers_hit _ _ _ _ _ _ h1 (fun _ => rfl), fun _ => h2⟩
      · rw [runParsers_miss _ _ _ _ h1]
        exact tail l1 h2 h3 h4
    · rw [runParsers_miss _ _ _ _ (multipleLineCommentTok_miss l hh)]
      exact tail l rfl rfl rfl

/-- When the scan loop ends by its `break`, the tokens it appended have types
of `scanTypes` and offsets that follow from the bytes of their texts. -/
theorem scanLoop_trace (n : Nat) :
    ∀ l l1 : lexer, scanLoop n l = Outcome.ret (LoopExit.atBreak l1) →
      ∃ new, l1.tokens = l.tokens ++ new ∧ (∀ t ∈ new, t.Typ ∈ scanTypes) ∧
        offsetsFrom l.offset new := by
  induction n with
  | zero => intro l l1 h; simp [scanLoop] at h
  | succ n ih =>
    intro l l1 h
    cases hu : l.reader.unread with
    | nil =>
      rw [scanLoop_nil n l hu] at h
      simp only [Outcome.ret.injEq, LoopExit.atBreak.injEq] at h
      subst h
      exact ⟨[], by simp, by simp, trivial⟩
    | cons c rest =>
      obtain ⟨e, l2, h1, h2⟩ :=
        runParsers_emit { l with tokRune := c, reader := ⟨rest, some c⟩,
                                 offset := l.offset + (c.utf8Size : Int) }
      cases e with
      | some e =>
        rw [scanLoop_abort n l l2 c rest e hu h1] at h
        simp at h
      | none =>
        rw [scanLoop_step n l l2 c rest hu h1] at h
        obtain ⟨t, h3, h4, h5, h6⟩ := h2 rfl
        obtain ⟨new, h7, h8, h9⟩ := ih l2 l1 h
        simp only at h3 h6
        refine ⟨t :: new, ?_, ?_, ?_, ?_⟩
        · rw [h7, h3]; simp
        · intro u hu'
          rcases List.mem_cons.mp hu' with hu' | hu'
          · rw [hu']; exact h4
          · exact h8 u hu'
        · rw [h5, h6]; omega
        · rw [h5]; exact h9


/-! ## The tokens `Parse` returns -/

theorem parseIdentifer_map (ts : List Token) : (parseIdentifer ts).1 = ts.map reclassify := rfl

theorem parseIdentifer_snd (ts : List Token) : (parseIdentifer ts).2 = none := rfl

theorem reclassify_facts (t : Token) :
    (reclassify t).Offset = t.Offset ∧ (reclassify t).Literal = t.Literal ∧
    (reclassify t).text = t.text ∧ (reclassify t).uncounted = t.uncounted ∧
    ((reclassify t).Typ = "MULTIPLE-LINE-COMMENT" ↔ t.Typ = "MULTIPLE-LINE-COMMENT") := by
  have h1 : ¬ ("NUMBER" = "STRING") := by decide
  have h2 : ¬ ("IDENTIFER" = "STRING") := by decide
  have h3 : ¬ ("NUMBER" = "MULTIPLE-LINE-COMMENT") := by decide
  have h4 : ¬ ("IDENTIFER" = "MULTIPLE-LINE-COMMENT") := by decide
  unfold reclassify
  by_cases hT : t.Typ = "IDENTIFER"
  · by_cases hN : isNumeric t.Literal = true
    · simp [hT, hN, Token.text, Token.uncounted, h1, h2, h3, h4]
    · simp [hT, hN]
  · simp [hT]

theorem reclassify_type (t : Token) (h : t.Typ ∈ scanTypes) :
    ((reclassify t).Typ = "NUMBER" → t.Typ = "IDENTIFER" ∧ isNumeric t.Literal = true) ∧
    ((reclassify t).Typ = "IDENTIFER" → t.Typ = "IDENTIFER" ∧ isNumeric t.Literal = false) := by
  have h1 : ¬ ("NUMBER" = "IDENTIFER") := by decide
  have h2 : "NUMBER" ∉ scanTypes := by decide
  unfold reclassify
  by_cases hT : t.Typ = "IDENTIFER"
  · by_cases hN : isNumeric t.Literal = true
    · simp [hT, hN, h1]
    · simp [hT, hN]
  · simp only [hT, if_false, false_and, imp_false, not_false_eq_true, and_true]
    intro hn
    rw [hn] at h
    exact h2 h

theorem offsetsFrom_map_reclassify (ts : List Token) :
    ∀ base : Int, offsetsFrom base ts → offsetsFrom base (ts.map reclassify) := by
  induction ts with
  | nil => intro base _; trivial
  | cons t ts ih =>
    intro base h
    obtain ⟨h1, h2⟩ := h
    obtain ⟨f1, _, f3, f4, _⟩ := reclassify_facts t
    refine ⟨?_, ?_⟩
    · rw [f1, f3, f4]; exact h1
    · rw [f1]; exact ih _ h2

theorem reconstruct_concat (xs ys : List Token) :
    reconstruct (xs ++ ys) = reconstruct xs ++ reconstruct ys := by
  induction ys using List.reverseRecOn with
  | nil => simp [reconstruct_nil]
  | append_singleton ys y ih =>
    rw [← List.append_assoc, reconstruct_append, reconstruct_append, ih, String.append_assoc]

theorem reconstruct_cons (t : Token) (ts : List Token) :
    reconstruct (t :: ts) = t.text ++ reconstruct ts := by
  have h : reconstruct [t] = t.text := by
    have := reconstruct_append [] t
    simpa [reconstruct_nil] using this
  rw [← List.singleton_append, reconstruct_concat, h]

/-- With `offsetsFrom`, the offset of a token that no `MULTIPLE-LINE-COMMENT`
precedes (itself included) is the number of bytes of the text of the tokens up
to it, itself included. -/
theorem offsetsFrom_index (ts : List Token) :
    ∀ (base : Int) (i : Nat) (t : Token), offsetsFrom base ts → ts[i]? = some t →
      (∀ u ∈ ts.take (i + 1), u.Typ ≠ "MULTIPLE-LINE-COMMENT") →
      t.Offset = base + utf8Len (reconstruct (ts.take (i + 1))).data := by
  induction ts with
  | nil => intro base i t _ hi; simp at hi
  | cons u ts ih =>
    intro base i t h hi hm
    obtain ⟨h1, h2⟩ := h
    have hu : u.uncounted = 0 := by
      have := hm u (by simp)
      simp [Token.uncounted, this]
    cases i with
    | zero =>
      simp only [List.getElem?_cons_zero, Option.some.injEq] at hi
      subst hi
      simp only [Nat.zero_add, List.take_succ_cons, List.take_zero, reconstruct_cons,
        reconstruct_nil, String.append_empty]
      rw [h1, hu]; omega
    | succ j =>
      simp only [List.getElem?_cons_succ] at hi
      have := ih u.Offset j t h2 hi (fun v hv => hm v (by
        simp only [List.take_succ_cons, List.mem_cons]; exact Or.inr hv))
      rw [this, h1, hu]
      simp only [List.take_succ_cons, reconstruct_cons, String.data_append, utf8Len_append]
      omega

/-- What `Parse` returns: tokens whose offsets follow from the bytes of their
texts, whose types are those of the recognizers or `NUMBER`, the latter
exactly on identifiers with a numeric literal. -/
theorem Parse_trace (input : String) (ts : List Token) (e : Option Error)
    (h : Parse input = Outcome.ret (ts, e)) :
    offsetsFrom 0 ts ∧
    ∀ t ∈ ts, (t.Typ ∈ scanTypes ∨ t.Typ = "NUMBER") ∧
      (t.Typ = "NUMBER" → isNumeric t.Literal = true) ∧
      (t.Typ = "IDENTIFER" → isNumeric t.Literal = false) := by
  have key : ∃ ts0, ts = ts0.map reclassify ∧ offsetsFrom 0 ts0 ∧
      ∀ t ∈ ts0, t.Typ ∈ scanTypes := by
    rcases scanLoop_spec (input.data.length + 1) (initLexer input) (Nat.lt_succ_self _) with
      ⟨l1, h1, _⟩ | ⟨l1, h1⟩
    · obtain ⟨new, h2, h3, h4⟩ := scanLoop_trace _ _ _ h1
      refine ⟨new, ?_, h4, h3⟩
      simp only [Parse, parseSimpleTokens, h1, ne_eq, reduceCtorEq, not_false_eq_true,
        not_true_eq_false, and_false, if_false, Outcome.ret.injEq] at h
      have h5 := congrArg Prod.fst h
      simp only [parseIdentifer_map] at h5
      rw [← h5, h2]
      simp [initLexer]
    · refine ⟨[], ?_, trivial, by simp⟩
      simp only [Parse, parseSimpleTokens, h1, ne_eq, reduceCtorEq, not_false_eq_true,
        not_true_eq_false, and_false, if_false, Outcome.ret.injEq] at h
      have h5 := congrArg Prod.fst h
      simp only [parseIdentifer_map] at h5
      rw [← h5]
  obtain ⟨ts0, rfl, h1, h2⟩ := key
  refine ⟨offsetsFrom_map_reclassify _ _ h1, fun t ht => ?_⟩
  obtain ⟨t0, ht0, rfl⟩ := List.mem_map.mp ht
  obtain ⟨f1, f2⟩ := reclassify_type t0 (h2 t0 ht0)
  obtain ⟨_, g2, _⟩ := reclassify_facts t0
  refine ⟨?_, fun hn => ?_, fun hi => ?_⟩
  · unfold reclassify
    by_cases hT : t0.Typ = "IDENTIFER"
    · by_cases hN : isNumeric t0.Literal = true
      · simp [hT, hN]
      · simp only [hT, hN, if_true, if_false, Bool.false_eq_true]
        left; exact mem_scanTypes.2.2.2.2.2.2
    · simp only [hT, if_false]; left; exact h2 t0 ht0
  · rw [g2]; exact (f1 hn).2
  · rw [g2]; exact (f2 hi).2


/-- C13, as amended: for every input and every token `Parse` returns that no
`MULTIPLE-LINE-COMMENT` token precedes (itself included), the tokens up to it
spell the beginning of the input and the token's offset is the number of input
bytes up to and including the token's last code point (the position just after
the token, not the position of its first code point). -/
theorem Parse_token_offset (input : String) (ts : List Token) (e : Option Error)
    (h : Parse input = Outcome.ret (ts, e)) (i : Nat) (t : Token) (hi : ts[i]? = some t)
    (hm : ∀ u ∈ ts.take (i + 1), u.Typ ≠ "MULTIPLE-LINE-COMMENT") :
    input = reconstruct (ts.take (i + 1)) ++ reconstruct (ts.drop (i + 1)) ∧
    t.Offset = utf8Len (reconstruct (ts.take (i + 1))).data := by
  refine ⟨?_, ?_⟩
  · rw [← reconstruct_concat, List.take_append_drop]
    rcases Parse_spec input with ⟨_, ts1, h1, h2⟩ | ⟨_, h1⟩
    · rw [h1] at h
      simp only [Outcome.ret.injEq, Prod.mk.injEq] at h
      rw [← h.1, h2]
    · rw [h1] at h
      simp only [Outcome.ret.injEq, Prod.mk.injEq] at h
      rw [← h.1] at hi
      simp at hi
  · have := offsetsFrom_index ts 0 i t (Parse_trace input ts e h).1 hi hm
    rw [this]; omega

/-- Witness of `Parse_token_offset`: the first `1` of `(+ 1 1)`, with offset
4 after the four bytes `(+ 1`. -/
theorem Parse_token_offset_witness :
    "(+ 1 1)" = reconstruct (plusOneOneTokens.take (3 + 1)) ++
      reconstruct (plusOneOneTokens.drop (3 + 1)) ∧
    (4 : Int) = utf8Len (reconstruct (plusOneOneTokens.take (3 + 1))).data :=
  Parse_token_offset "(+ 1 1)" plusOneOneTokens none (by decide) 3 ⟨"NUMBER", "1", 0, 0, 4⟩
    rfl (by decide)

/-- C13 fails as stated: on the input `(` the only token starts at position 0
(no byte of the input precedes it) and has offset 1. -/
theorem Parse_token_offset_lparen :
    Parse "(" = Outcome.ret ([⟨"LIST-BEGIN", "(", 0, 0, 1⟩], none) ∧
    (1 : Int) ≠ utf8Len ("" : String).data := by
  decide

/-! ## The newline of a single-line comment -/

/-- The loop of `singleLineCommentTok` on a text without a newline followed by
a newline: the text and the newline are added to the value. -/
theorem singleLineCommentLoop_closed (s rest : List Char) :
    ∀ (n : Nat) (l : lexer) (value : String),
      l.tokRune ≠ newline → l.reader.unread = s ++ newline :: rest →
      (∀ c ∈ s, c ≠ newline) → s.length + 1 < n →
      ∃ off : Int, singleLineCommentLoop n l value =
        Outcome.ret ({ l with tokRune := newline, offset := off,
                              reader := ⟨rest, some newline⟩ },
          ⟨value.data ++ (s ++ [newline])⟩, none) := by
  induction s with
  | nil =>
    intro n l value ht hu _ hn
    obtain ⟨m, rfl⟩ : ∃ m, n = m + 2 := ⟨n - 2, by simp at hn; omega⟩
    simp only [List.nil_append] at hu
    refine ⟨l.offset + (newline.utf8Size : Int), ?_⟩
    unfold singleLineCommentLoop
    simp only [ne_eq, ht, not_false_eq_true, if_true, ReadRune_cons _ newline rest hu]
    unfold singleLineCommentLoop
    simp
    rfl
  | cons c s ih =>
    intro n l value ht hu hs hn
    obtain ⟨m, rfl⟩ : ∃ m, n = m + 1 := ⟨n - 1, by simp at hn; omega⟩
    simp only [List.cons_append] at hu
    obtain ⟨off, h1⟩ := ih m
      { l with tokRune := c, reader := ⟨s ++ newline :: rest, some c⟩,
               offset := l.offset + (c.utf8Size : Int) }
      (value.push c) (hs c (List.mem_cons_self _ _)) rfl
      (fun d hd => hs d (List.mem_cons_of_mem _ hd)) (by simp at hn; omega)
    refine ⟨off, ?_⟩
    unfold singleLineCommentLoop
    simp only [ne_eq, ht, not_false_eq_true, if_true, ReadRune_cons _ c _ hu, h1]
    simp

/-- One dispatch on a `;` that opens a comment which a newline ends. -/
theorem runParsers_lineComment (l : lexer) (s rest : List Char) (h : l.tokRune = semicolon)
    (hu : l.reader.unread = s ++ newline :: rest) (hs : ∀ c ∈ s, c ≠ newline) :
    ∃ off : Int, runParsers tokenParsers l =
      Outcome.ret (none,
        { l with tokRune := newline, offset := off, reader := ⟨rest, some newline⟩,
                 tokens := l.tokens ++
                   [⟨"SINGLE-LINE-COMMENT", ⟨semicolon :: (s ++ [newline])⟩,
                     l.currentLine, l.currentColumn, off⟩] }) := by
  obtain ⟨off, h1⟩ := singleLineCommentLoop_closed s rest (l.reader.unread.length + 1) l ";"
    (by rw [h]; decide) hu hs (by rw [hu]; simp)
  refine ⟨off, ?_⟩
  unfold tokenParsers
  rw [runParsers_miss _ _ _ _ (separatorTok_miss l (by rw [h]; decide))]
  apply runParsers_hit _ _ _ _ true _ _ (fun _ => rfl)
  unfold singleLineCommentTok
  rw [if_pos h, h1]
  rfl


theorem endsAtBreak_iff (input : String) (h : endsAtBreak input = true) :
    ∃ lf, scanLoop (input.data.length + 1) (initLexer input) =
      Outcome.ret (LoopExit.atBreak lf) := by
  unfold endsAtBreak at h
  split at h
  · next lf heq => exact ⟨lf, heq⟩
  · exact absurd h (by decide)

/-- C11, as amended: for every text `s` without a newline and every text
`rest` such that the scan of `;` s newline `rest` ends at the scan loop's own
read, the first token `Parse` returns is a `SINGLE-LINE-COMMENT` whose literal
is `;` s followed by the newline (the newline is part of it), and the tokens
after it spell `rest` exactly: no `SEPARATOR` token stands for that newline. -/
theorem Parse_comment_line (s rest : String) (hs : ∀ c ∈ s.data, c ≠ newline)
    (h : endsAtBreak (";" ++ s ++ String.singleton newline ++ rest) = true) :
    ∃ (off : Int) (ts : List Token),
      Parse (";" ++ s ++ String.singleton newline ++ rest) =
        Outcome.ret (⟨"SINGLE-LINE-COMMENT", ";" ++ s ++ String.singleton newline, 0, 0, off⟩
          :: ts, none) ∧
      reconstruct ts = rest := by
  have hin : (";" ++ s ++ String.singleton newline ++ rest).data =
      semicolon :: (s.data ++ newline :: rest.data) := by
    simp only [String.data_append, String.data_singleton, List.append_assoc]; rfl
  have hlit : (⟨semicolon :: (s.data ++ [newline])⟩ : String) =
      ";" ++ s ++ String.singleton newline := by
    apply String.ext
    simp only [String.data_append, String.data_singleton, List.append_assoc]; rfl
  have hne : ¬ ("SINGLE-LINE-COMMENT" = "IDENTIFER") := by decide
  have hns : ¬ ("SINGLE-LINE-COMMENT" = "STRING") := by decide
  obtain ⟨lf, h0⟩ := endsAtBreak_iff _ h
  obtain ⟨m, hm⟩ : ∃ m, (";" ++ s ++ String.singleton newline ++ rest).data.length + 1
      = m + 1 ∧ rest.data.length < m :=
    ⟨s.data.length + rest.data.length + 2, by rw [hin]; simp; omega, by omega⟩
  obtain ⟨off, h1⟩ := runParsers_lineComment
    { initLexer (";" ++ s ++ String.singleton newline ++ rest) with
      tokRune := semicolon
      reader := ⟨s.data ++ newline :: rest.data, some semicolon⟩
      offset := 0 + (semicolon.utf8Size : Int) }
    s.data rest.data rfl rfl hs
  rw [hm.1, scanLoop_step m _ _ semicolon _ (by simp only [initLexer, NewReader, hin]) h1] at h0
  simp only [initLexer, List.nil_append, hlit] at h0
  obtain ⟨new, h2, _, _⟩ := scanLoop_trace _ _ _ h0
  simp only at h2
  have h3 : (reconstruct lf.tokens).data =
      (reconstruct [⟨"SINGLE-LINE-COMMENT", ";" ++ s ++ String.singleton newline, 0, 0, off⟩]).data
        ++ rest.data := by
    rcases scanLoop_spec m
      { tokRune := newline,
        tokens := [⟨"SINGLE-LINE-COMMENT", ";" ++ s ++ String.singleton newline, 0, 0, off⟩],
        currentLine := 0, currentColumn := 0, offset := off,
        reader := ⟨rest.data, some newline⟩ } hm.2 with ⟨l2, h4, h5⟩ | ⟨l2, h4⟩
    · rw [h0] at h4
      simp only [Outcome.ret.injEq, LoopExit.atBreak.injEq] at h4
      rw [h4]; exact h5
    · rw [h0] at h4
      simp at h4
  have h6 : reconstruct new = rest := by
    apply String.ext
    rw [h2, reconstruct_concat, String.data_append] at h3
    exact List.append_cancel_left h3
  refine ⟨off, new.map reclassify, ?_, ?_⟩
  · unfold Parse parseSimpleTokens
    rw [hm.1, scanLoop_step m _ _ semicolon _ (by simp only [initLexer, NewReader, hin]) h1]
    simp only [initLexer, List.nil_append, hlit, h0, h2, ne_eq, reduceCtorEq, not_false_eq_true,
      not_true_eq_false, and_false, if_false]
    rw [show ∀ ts : List Token, parseIdentifer ts = (ts.map reclassify, none) from
      fun _ => rfl]
    simp [reclassify, hne]
  · rw [← parseIdentifer_map, reconstruct_parseIdentifer, h6]

/-- Witness of `Parse_comment_line`: the comment line `; test` followed by the
list `(f)` and a newline. -/
theorem Parse_comment_line_witness :
    ∃ (off : Int) (ts : List Token),
      Parse (";" ++ " test" ++ String.singleton newline ++ "(f)\n") =
        Outcome.ret (⟨"SINGLE-LINE-COMMENT", ";" ++ " test" ++ String.singleton newline, 0, 0,
          off⟩ :: ts, none) ∧
      reconstruct ts = "(f)\n" :=
  Parse_comment_line " test" "(f)\n" (by decide) (by decide)

/-- C11 fails as stated: on the input `;a` followed by a newline, `Parse`
returns one token, the `SINGLE-LINE-COMMENT` whose literal is `;a` with the
newline, and no `SEPARATOR` token. -/
theorem Parse_comment_line_newline :
    Parse (";" ++ "a" ++ String.singleton newline ++ "") =
      Outcome.ret ([⟨"SINGLE-LINE-COMMENT", ";a\n", 0, 0, 3⟩], none) := by
  decide


/-! ## The forms of numeric literals -/

theorem lor_32_lt (n k : Nat) (hk : k < 128) (h : n ||| 32 = k) : n < 128 := by
  apply Nat.lt_pow_two_of_testBit n (n := 7)
  intro i hi
  have h1 : Nat.testBit (n ||| 32) i = false := by
    rw [h]
    exact Nat.testBit_lt_two_pow (lt_of_lt_of_le hk (Nat.pow_le_pow_right (Nat.zero_lt_two) hi))
  rw [Nat.testBit_or] at h1
  simp only [Bool.or_eq_false_iff] at h1
  exact h1.1

theorem char_of_toNat (c : Char) (n : Nat) (h : c.toNat = n) : c = Char.ofNat n := by
  rw [← h, Char.ofNat_toNat]

theorem lower_eq_x (c : Char) (h : lower c = 120) : c = 'x' ∨ c = 'X' := by
  have h1 : c.toNat < 128 := lor_32_lt _ 120 (by decide) h
  have h2 : ∀ n, n < 128 → n ||| 32 = 120 → n = 120 ∨ n = 88 := by decide
  rcases h2 _ h1 h with h3 | h3
  · left; exact char_of_toNat c _ h3
  · right; exact char_of_toNat c _ h3

theorem lower_eq_e (c : Char) (h : lower c = 101) : c = 'e' ∨ c = 'E' := by
  have h1 : c.toNat < 128 := lor_32_lt _ 101 (by decide) h
  have h2 : ∀ n, n < 128 → n ||| 32 = 101 → n = 101 ∨ n = 69 := by decide
  rcases h2 _ h1 h with h3 | h3
  · left; exact char_of_toNat c _ h3
  · right; exact char_of_toNat c _ h3

theorem not_isDecDigit_underscore : isDecDigit '_' = false := by decide
theorem not_isDecDigit_point : isDecDigit '.' = false := by decide

/-- The exponent loop of `readFloat` on a text without underscore leaves what
follows the leading digits. -/
theorem exponentLoop_rest (s : List Char) :
    ∀ (e : Nat) (u : Bool), '_' ∉ s → (exponentLoop s e u).2.2 = s.dropWhile isDecDigit := by
  induction s with
  | nil => intro e u _; rfl
  | cons c s ih =>
    intro e u h
    have hc : c ≠ '_' := fun hc => h (by rw [hc]; exact List.mem_cons_self _ _)
    have hs : '_' ∉ s := fun hs => h (List.mem_cons_of_mem _ hs)
    unfold exponentLoop
    cases hd : isDecDigit c with
    | true => simp only [hc, if_false, if_true, List.dropWhile_cons, hd]; exact ih _ _ hs
    | false => simp [hc, hd, List.dropWhile_cons]

/-- The mantissa loop of `readFloat`, base 10, after the point has been seen,
on a text without underscore: it leaves what follows the leading digits. -/
theorem mantissaLoop_after_point (s : List Char) :
    ∀ st : MantissaState, st.sawdot = true → '_' ∉ s →
      (mantissaLoop false s st).2 = s.dropWhile isDecDigit ∧
      (mantissaLoop false s st).1.sawdigits =
        (st.sawdigits || !(s.takeWhile isDecDigit).isEmpty) := by
  induction s with
  | nil => intro st _ _; simp [mantissaLoop]
  | cons c s ih =>
    intro st hdot h
    have hc : c ≠ '_' := fun hc => h (by rw [hc]; exact List.mem_cons_self _ _)
    have hs : '_' ∉ s := fun hs => h (List.mem_cons_of_mem _ hs)
    unfold mantissaLoop
    by_cases hp : c = '.'
    · subst hp
      simp [hdot, List.dropWhile_cons, List.takeWhile_cons, not_isDecDigit_point]
    · cases hd : isDecDigit c with
      | true =>
        simp only [hc, hp, if_false, if_true, List.dropWhile_cons, List.takeWhile_cons, hd]
        split
        · have := ih { st with sawdigits := true, dp := st.dp - 1 } hdot hs
          simp [this.1, this.2]
        · have := ih { st with sawdigits := true, nd := st.nd + 1,
                               mantissa := st.mantissa * 10 + (c.toNat - 48) } hdot hs
          simp at this
          simp [this.1, this.2]
      | false =>
        simp [hc, hp, hd, List.dropWhile_cons, List.takeWhile_cons]


/-- The mantissa loop of `readFloat`, base 10, before any point, on a text
without underscore: it leaves what follows the digits, a point and the digits
after it, and has seen a digit exactly when there is one on a side of the
point. -/
theorem mantissaLoop_front (s : List Char) :
    ∀ st : MantissaState, st.sawdot = false → '_' ∉ s →
      (mantissaLoop false s st).2 =
        (match s.dropWhile isDecDigit with
          | c :: t => if c = '.' then t.dropWhile isDecDigit else c :: t
          | [] => []) ∧
      (mantissaLoop false s st).1.sawdigits =
        (st.sawdigits || !(s.takeWhile isDecDigit).isEmpty ||
          !(match s.dropWhile isDecDigit with
            | c :: t => if c = '.' then t.takeWhile isDecDigit else []
            | [] => []).isEmpty) := by
  induction s with
  | nil => intro st _ _; simp [mantissaLoop]
  | cons c s ih =>
    intro st hdot h
    have hc : c ≠ '_' := fun hc => h (by rw [hc]; exact List.mem_cons_self _ _)
    have hs : '_' ∉ s := fun hs => h (List.mem_cons_of_mem _ hs)
    unfold mantissaLoop
    by_cases hp : c = '.'
    · subst hp
      have := mantissaLoop_after_point s { st with sawdot := true, dp := st.nd } rfl hs
      simp [hdot, List.dropWhile_cons, List.takeWhile_cons, not_isDecDigit_point, this.1,
        this.2]
    · cases hd : isDecDigit c with
      | true =>
        simp only [hc, hp, if_false, if_true, List.dropWhile_cons, List.takeWhile_cons, hd]
        split
        · have := ih { st with sawdigits := true, dp := st.dp - 1 } hdot hs
          simp [this.1, this.2]
        · have := ih { st with sawdigits := true, nd := st.nd + 1,
                               mantissa := st.mantissa * 10 + (c.toNat - 48) } hdot hs
          simp at this
          simp [this.1, this.2]
      | false =>
        simp [hc, hp, hd, List.dropWhile_cons, List.takeWhile_cons]

theorem dropSign_not_mem (s : List Char) (h : '_' ∉ s) : '_' ∉ dropSign s := by
  cases s with
  | nil => exact h
  | cons c t =>
    show '_' ∉ (if c = '+' ∨ c = '-' then t else c :: t)
    split
    · exact fun ht => h (List.mem_cons_of_mem _ ht)
    · exact h

theorem readFloat_decimalForm (s : List Char) (h1 : (readFloat s).ok = true)
    (h2 : (readFloat s).i = s.length) (hx : hexForm s = false) (hu : '_' ∉ s) :
    decimalForm s = true := by
  cases s with
  | nil => simp [readFloat] at h1
  | cons c t =>
    have hs1 : (if c = '+' ∨ c = '-' then t else c :: t) = dropSign (c :: t) := rfl
    have hu1 : '_' ∉ dropSign (c :: t) := dropSign_not_mem _ hu
    have hhex : (match dropSign (c :: t) with
        | c0 :: c1 :: _ :: _ => decide (c0 = '0') && decide (lower c1 = 120)
        | _ => false) = false := by
      unfold hexForm at hx
      split
      · next c0 c1 c2 r heq =>
        rw [heq] at hx
        simp only [Bool.and_eq_false_iff, decide_eq_false_iff_not, Bool.or_eq_false_iff] at hx ⊢
        rcases hx with hx | hx
        · exact Or.inl hx
        · right; intro hl; rcases lower_eq_x c1 hl with h | h
          · exact hx.1 h
          · exact hx.2 h
      · rfl
    obtain ⟨m1, m2⟩ := mantissaLoop_front (dropSign (c :: t))
      { mantissa := 0, nd := 0, dp := 0, sawdot := false, sawdigits := false,
        underscores := false } rfl hu1
    have key : decimalForm (c :: t) =
        ((!((dropSign (c :: t)).takeWhile isDecDigit).isEmpty ||
          !(match (dropSign (c :: t)).dropWhile isDecDigit with
            | c :: t => if c = '.' then t.takeWhile isDecDigit else []
            | [] => []).isEmpty) &&
          match (match (dropSign (c :: t)).dropWhile isDecDigit with
            | c :: t => if c = '.' then t.dropWhile isDecDigit else c :: t
            | [] => []) with
          | [] => true
          | x :: t =>
            (decide (x = 'e') || decide (x = 'E')) && !(dropSign t).isEmpty &&
              (dropSign t).all isDecDigit) := by
      unfold decimalForm
      cases (dropSign (c :: t)).dropWhile isDecDigit <;> rfl
    have hsuf : ∀ a, a ∈ (match (dropSign (c :: t)).dropWhile isDecDigit with
            | c :: t => if c = '.' then t.dropWhile isDecDigit else c :: t
            | [] => []) → a ∈ dropSign (c :: t) := by
      intro a ha
      have h0 := (List.dropWhile_suffix isDecDigit (l := dropSign (c :: t))).subset
      cases hd : (dropSign (c :: t)).dropWhile isDecDigit with
      | nil => rw [hd] at ha; simp at ha
      | cons d r =>
        rw [hd] at ha h0
        simp only at ha
        split at ha
        · exact h0 (List.mem_cons_of_mem _ ((List.dropWhile_suffix isDecDigit).subset ha))
        · exact h0 ha
    unfold readFloat at h1 h2
    simp only [hs1, hhex, Bool.false_eq_true, if_false] at h1 h2
    generalize mantissaLoop false (dropSign (c :: t))
      { mantissa := 0, nd := 0, dp := 0, sawdot := false, sawdigits := false,
        underscores := false } = p at m1 m2 h1 h2
    obtain ⟨st, s3⟩ := p
    simp only [Bool.false_or] at m1 m2 h1 h2
    rw [key, ← m1, ← m2]
    cases hsd : st.sawdigits with
    | false => rw [hsd] at h1; simp at h1
    | true =>
      rw [hsd] at h1 h2
      simp only [Bool.not_true, Bool.false_eq_true, if_false, Bool.true_and] at h1 h2 ⊢
      cases s3 with
      | nil => rfl
      | cons x s4 =>
        have hu3 : '_' ∉ x :: s4 := fun hm => hu1 (hsuf _ (by rw [← m1]; exact hm))
        simp only at h1 h2 ⊢
        by_cases hx101 : lower x = 101
        · simp only [hx101, if_true] at h1 h2
          cases s4 with
          | nil => simp at h1
          | cons y s5 =>
            have hs6 : (if y = '+' ∨ y = '-' then s5 else y :: s5) = dropSign (y :: s5) := rfl
            simp only [hs6] at h1 h2
            have hu6 : '_' ∉ dropSign (y :: s5) :=
              dropSign_not_mem _ (fun hm => hu3 (List.mem_cons_of_mem _ hm))
            cases h6 : dropSign (y :: s5) with
            | nil => rw [h6] at h1; simp at h1
            | cons z tl =>
              rw [h6] at hu6
              rw [h6] at h1 h2
              simp only at h1 h2
              cases hz : isDecDigit z with
              | false => rw [hz] at h1; simp at h1
              | true =>
                rw [hz] at h1 h2
                simp only [Bool.not_true, Bool.false_eq_true, if_false] at h1 h2
                have hr := exponentLoop_rest (z :: tl) 0 st.underscores hu6
                split at h2
                · next hc => rw [if_pos hc] at h1; exact absurd h1 (by simp)
                · simp only at h2
                  rw [hr] at h2
                  have hnil : List.dropWhile isDecDigit (z :: tl) = [] := by
                    apply List.eq_nil_of_length_eq_zero
                    simp only [List.length_cons] at h2 ⊢
                    omega
                  have hall := List.dropWhile_eq_nil_iff.mp hnil
                  have hxe := lower_eq_e x hx101
                  simp only [Bool.and_eq_true, Bool.or_eq_true, decide_eq_true_eq,
                    List.all_eq_true, List.isEmpty_cons, Bool.not_false, and_true]
                  exact ⟨hxe, hall⟩
        · simp only [hx101, if_false] at h1 h2
          split at h2
          · next hc => rw [if_pos hc] at h1; exact absurd h1 (by simp)
          · simp only [List.length_cons] at h2
            omega


theorem commonPrefixLenIgnoreCase_take : ∀ (s p : List Char) (j : Nat),
    j ≤ commonPrefixLenIgnoreCase s p →
      (s.take j).map lowerCode = (p.take j).map Char.toNat ∧ j ≤ s.length := by
  intro s
  induction s with
  | nil =>
    intro p j h
    have : j = 0 := by simpa [commonPrefixLenIgnoreCase] using h
    subst this
    simp
  | cons c s ih =>
    intro p j h
    cases j with
    | zero => simp
    | succ j =>
      cases p with
      | nil => simp [commonPrefixLenIgnoreCase] at h
      | cons q ps =>
        have hdef : commonPrefixLenIgnoreCase (c :: s) (q :: ps) =
            if lowerCode c = q.toNat then commonPrefixLenIgnoreCase s ps + 1 else 0 := rfl
        rw [hdef] at h
        by_cases hc : lowerCode c = q.toNat
        · rw [if_pos hc] at h
          obtain ⟨h1, h2⟩ := ih ps j (by omega)
          simp only [List.take_succ_cons, List.map_cons, List.length_cons, h1, hc]
          exact ⟨trivial, by omega⟩
        · rw [if_neg hc] at h
          omega

theorem specialInf_form (s : List Char) (k n : Nat) (h : specialInf s k = (n, true))
    (hn : n = s.length + k) :
    s.map lowerCode = "inf".data.map Char.toNat ∨
      s.map lowerCode = "infinity".data.map Char.toNat := by
  obtain ⟨m, hm⟩ : ∃ m, m = commonPrefixLenIgnoreCase s "infinity".data := ⟨_, rfl⟩
  obtain ⟨n1, hn1⟩ : ∃ n1, n1 = if 3 < m ∧ m < 8 then 3 else m := ⟨_, rfl⟩
  have h0 : (if n1 = 3 ∨ n1 = 8 then (k + n1, true) else ((0 : Nat), false)) = (n, true) := by
    rw [hn1, hm]; exact h
  by_cases hc : n1 = 3 ∨ n1 = 8
  · rw [if_pos hc] at h0
    have hk : k + n1 = n := congrArg Prod.fst h0
    have hlen : s.length = n1 := by omega
    rcases hc with hc | hc
    · left
      have h3 : 3 ≤ m := by
        rw [hn1] at hc
        split at hc <;> omega
      obtain ⟨h1, _⟩ := commonPrefixLenIgnoreCase_take s _ 3 (hm ▸ h3)
      rw [List.take_of_length_le (by omega)] at h1
      exact h1
    · right
      have h8 : 8 ≤ m := by
        rw [hn1] at hc
        split at hc <;> omega
      obtain ⟨h1, _⟩ := commonPrefixLenIgnoreCase_take s _ 8 (hm ▸ h8)
      rw [List.take_of_length_le (by omega)] at h1
      exact h1
  · rw [if_neg hc] at h0
    exact absurd (congrArg Prod.snd h0) (by simp)

theorem special_form (s : List Char) (n : Nat) (h : special s = (n, true))
    (hn : n = s.length) : specialForm s = true := by
  cases s with
  | nil => simp [special] at h
  | cons c rest =>
    have hdef : special (c :: rest) =
        if c = '+' ∨ c = '-' then specialInf rest 1
        else if c = 'i' ∨ c = 'I' then specialInf (c :: rest) 0
        else if c = 'n' ∨ c = 'N' then
          (if commonPrefixLenIgnoreCase (c :: rest) "nan".data = 3 then (3, true)
            else (0, false))
        else (0, false) := rfl
    rw [hdef] at h
    unfold specialForm
    rw [decide_eq_true_eq]
    by_cases hs : c = '+' ∨ c = '-'
    · rw [if_pos hs] at h
      have := specialInf_form rest 1 n h (by simpa using hn)
      have hcode : lowerCode c = 43 ∨ lowerCode c = 45 := by
        rcases hs with hc | hc <;> subst hc
        · left; decide
        · right; decide
      rw [List.map_cons]
      rcases this with h1 | h1 <;> rcases hcode with h2 | h2 <;> rw [h1, h2] <;> decide
    · rw [if_neg hs] at h
      by_cases hi : c = 'i' ∨ c = 'I'
      · rw [if_pos hi] at h
        have := specialInf_form (c :: rest) 0 n h (by simpa using hn)
        rcases this with h1 | h1 <;> rw [h1] <;> decide
      · rw [if_neg hi] at h
        by_cases hnn : c = 'n' ∨ c = 'N'
        · rw [if_pos hnn] at h
          by_cases hc : commonPrefixLenIgnoreCase (c :: rest) "nan".data = 3
          · rw [if_pos hc] at h
            have hn3 : (c :: rest).length = 3 := by
              have := congrArg Prod.fst h
              simp only at this
              omega
            obtain ⟨h1, _⟩ :=
              commonPrefixLenIgnoreCase_take (c :: rest) _ 3 (le_of_eq hc.symm)
            rw [List.take_of_length_le (le_of_eq hn3)] at h1
            rw [h1]
            decide
          · rw [if_neg hc] at h
            exact absurd (congrArg Prod.snd h) (by simp)
        · rw [if_neg hnn] at h
          exact absurd (congrArg Prod.snd h) (by simp)

/-- Every literal `isNumeric` accepts has one of four forms: a decimal
numeral (optional sign, digits with an optional point and at least one digit,
optional exponent `e` or `E` with optional sign and at least one digit), an
infinity or NaN spelling in any letter case, a text that begins, after an
optional sign, with `0x` or `0X`, or a text with an underscore. -/
theorem isNumeric_forms (s : String) (h : isNumeric s = true) :
    decimalForm s.data = true ∨ specialForm s.data = true ∨ hexForm s.data = true ∨
      '_' ∈ s.data := by
  unfold isNumeric parseFloatOk at h
  cases hsp : special s.data with
  | mk n b =>
    rw [hsp] at h
    cases b with
    | true =>
      simp only [beq_iff_eq] at h
      exact Or.inr (Or.inl (special_form _ n hsp h))
    | false =>
      simp only [Bool.and_eq_true, beq_iff_eq] at h
      by_cases hu : '_' ∈ s.data
      · exact Or.inr (Or.inr (Or.inr hu))
      · cases hx : hexForm s.data with
        | true => exact Or.inr (Or.inr (Or.inl rfl))
        | false => exact Or.inl (readFloat_decimalForm _ h.1.1 h.1.2 hx hu)


/-! ## Which tokens are numbers -/

/-- C18, as amended: for every input, every token of type `NUMBER` that
`Parse` returns has a literal that `strconv.ParseFloat` accepts (`isNumeric`),
which is a decimal numeral (optional sign, digits with an optional point and
at least one digit, optional exponent `e` or `E` with optional sign and
digits), an infinity or NaN spelling, a text that begins after an optional
sign with `0x` or `0X`, or a text with an underscore; every token of type
`IDENTIFER` has a literal that it rejects; the accepted literals include
`inf`, `nan` and `infinity`, which therefore become `NUMBER`, while `0x10` is
rejected and stays `IDENTIFER`. -/
theorem Parse_number_tokens (input : String) (ts : List Token) (e : Option Error)
    (h : Parse input = Outcome.ret (ts, e)) (t : Token) (ht : t ∈ ts) :
    ((t.Typ = "NUMBER" → isNumeric t.Literal = true ∧
        (decimalForm t.Literal.data = true ∨ specialForm t.Literal.data = true ∨
          hexForm t.Literal.data = true ∨ '_' ∈ t.Literal.data)) ∧
     (t.Typ = "IDENTIFER" → isNumeric t.Literal = false)) ∧
    (isNumeric "inf" = true ∧ isNumeric "nan" = true ∧ isNumeric "infinity" = true ∧
     isNumeric "0x10" = false) := by
  refine ⟨?_, by decide⟩
  obtain ⟨_, h1⟩ := Parse_trace input ts e h
  exact ⟨fun hn => ⟨(h1 t ht).2.1 hn, isNumeric_forms _ ((h1 t ht).2.1 hn)⟩, (h1 t ht).2.2⟩

/-- Witness of `Parse_number_tokens`: the token `NUMBER 1.6543E2` of the
input `(1.6543E2 x)`. -/
theorem Parse_number_tokens_witness :
    (("NUMBER" = "NUMBER" → isNumeric "1.6543E2" = true ∧
        (decimalForm "1.6543E2".data = true ∨ specialForm "1.6543E2".data = true ∨
          hexForm "1.6543E2".data = true ∨ '_' ∈ "1.6543E2".data)) ∧
     ("NUMBER" = "IDENTIFER" → isNumeric "1.6543E2" = false)) ∧
    (isNumeric "inf" = true ∧ isNumeric "nan" = true ∧ isNumeric "infinity" = true ∧
     isNumeric "0x10" = false) :=
  Parse_number_tokens "(1.6543E2 x)"
    [⟨"LIST-BEGIN", "(", 0, 0, 1⟩, ⟨"NUMBER", "1.6543E2", 0, 0, 9⟩,
     ⟨"SEPARATOR", " ", 0, 0, 10⟩, ⟨"IDENTIFER", "x", 0, 0, 11⟩, ⟨"LIST-END", ")", 0, 0, 12⟩]
    none (by decide) ⟨"NUMBER", "1.6543E2", 0, 0, 9⟩ (by decide)

/-- C18 fails as stated: on the input `inf nan infinity 0x10` followed by a
newline, the identifiers `inf`, `nan` and `infinity` come back as `NUMBER`
tokens (`0x10` stays `IDENTIFER`). -/
theorem Parse_number_inf :
    Parse "inf nan infinity 0x10\n" = Outcome.ret
      ([⟨"NUMBER", "inf", 0, 0, 3⟩, ⟨"SEPARATOR", " ", 0, 0, 4⟩,
        ⟨"NUMBER", "nan", 0, 0, 7⟩, ⟨"SEPARATOR", " ", 0, 0, 8⟩,
        ⟨"NUMBER", "infinity", 0, 0, 16⟩, ⟨"SEPARATOR", " ", 0, 0, 17⟩,
        ⟨"IDENTIFER", "0x10", 0, 0, 21⟩, ⟨"SEPARATOR", "\n", 0, 0, 22⟩], none) := by
  decide

end lex
